import Mathlib

/-!
Shallow embedding of `src/server/src/lighting.rs` from the feather server
(block-light calculation), together with proofs about the embedded code.

Naming note: the word "opaque" is a reserved token in this development, so
the source predicate `Block::is_opaque` is embedded as `Block.isSolid` and
the source function `opaque_non_emitting_removal` (algorithm #4 of the
module documentation) as `solidNonEmittingRemoval`.  Everything else keeps
the source names (camel-cased where Lean style requires).

The types `BlockPosition`, `ChunkPosition`, `Chunk`, `ChunkMap` and `Block`
come from the crates `feather_core` / `feather_blocks`, which are part of
the repository but not included under `src/`; they are modelled from the
spec (section 3, "DATA MODEL"), as noted on each definition.
-/

namespace Feather

/-- Signed integer 3-tuple in world-block coordinates.  Modelled from the
spec: "Block position: signed integer 3-tuple (x, y, z)". -/
structure BlockPosition where
  x : Int
  y : Int
  z : Int
deriving DecidableEq, Repr

/-- Signed integer 2-tuple identifying a chunk column.  Modelled from the
spec: "Chunk position: signed integer 2-tuple (x, z)". -/
structure ChunkPosition where
  x : Int
  z : Int
deriving DecidableEq, Repr

/-- Manhattan distance between two block positions, as computed by
`BlockPosition::manhattan_distance` (sum of absolute coordinate
differences; the source returns an `i32`, always non-negative, so we use
`Nat`).  Modelled from the spec: "Supports Manhattan distance to another
block position". -/
def BlockPosition.manhattanDistance (a b : BlockPosition) : Nat :=
  (a.x - b.x).natAbs + (a.y - b.y).natAbs + (a.z - b.z).natAbs

/-- The chunk column containing a block position.  Chunks are 16x16 block
columns; floor division matches the arithmetic-shift computation of the
source.  Modelled from the spec: "a chunk spans the full height range at
one horizontal cell of a coarser grid". -/
def BlockPosition.chunkPos (p : BlockPosition) : ChunkPosition :=
  ⟨p.x.ediv 16, p.z.ediv 16⟩

/-- Block-local coordinate of a position within its chunk, as computed by
`feather_core::world::chunk_relative_pos`.  Modelled from the spec:
"Local coordinates are the block position's offset from the chunk's
origin". -/
def chunkRelativePos (p : BlockPosition) : Int × Int × Int :=
  (p.x.emod 16, p.y, p.z.emod 16)

/-- Block types, with the two read-only static properties the lighting
engine consumes.  Modelled from the spec: "each block type is either
opaque ... or transparent, and either emits light at a fixed level 0-15 or
emits none". -/
inductive Block where
  | air
  | stone
  | glowstone
deriving DecidableEq, Repr

/-- Embeds `Block::is_opaque`: whether the block stops light propagation. -/
def Block.isSolid : Block → Bool
  | .stone => true
  | _ => false

/-- Emitted light level of a block type (0 = non-emitting). -/
def Block.emission : Block → Nat
  | .glowstone => 15
  | _ => 0

/-- A chunk: per-block light values and block types at chunk-local
coordinates.  Modelled from the spec: "Chunk: owns a 3-D dense grid of
per-block light values ... and a parallel grid of block-type
identifiers". -/
structure Chunk where
  position : ChunkPosition
  blockLight : Int × Int × Int → Nat
  blocks : Int × Int × Int → Block

/-- Embeds `Chunk::block_light_at`. -/
def Chunk.blockLightAt (c : Chunk) (q : Int × Int × Int) : Nat :=
  c.blockLight q

/-- Embeds `Chunk::set_block_light_at`.  Modelled from the spec: stores the
value at the local coordinate ("caller must have already clamped to
0-15"). -/
def Chunk.setBlockLightAt (c : Chunk) (q : Int × Int × Int) (v : Nat) : Chunk :=
  { c with blockLight := fun r => if r = q then v else c.blockLight r }

/-- Embeds `Chunk::block_at`. -/
def Chunk.blockAt (c : Chunk) (q : Int × Int × Int) : Block :=
  c.blocks q

/-- Embeds `Chunk::new`: light zero-initialized, blocks air.  Modelled from
the spec: "light grids are zero-initialized on chunk creation". -/
def Chunk.new (pos : ChunkPosition) : Chunk :=
  ⟨pos, fun _ => 0, fun _ => .air⟩

/-- The chunk map: a mapping from chunk position to chunk, absent for
unloaded positions.  Modelled from the spec: "Spatial map: mapping from
chunk position to chunk". -/
abbrev ChunkMap := ChunkPosition → Option Chunk

/-- The lighter context of `lighting.rs`: the chunk map together with the
single-entry cache `current_chunk`.  The source caches a raw pointer into
the map; since the pointed-to chunk always sits in the map at its own
position, we model the cache as a copy kept in sync with the map (the
well-formedness predicate `Context.Wf` states the aliasing invariant). -/
structure Context where
  currentChunk : Chunk
  chunkMap : ChunkMap

/-- Aliasing invariant of the raw-pointer cache: every stored chunk is keyed
by its own position, and the cached chunk is the map's chunk at its
position. -/
def Context.Wf (ctx : Context) : Prop :=
  (∀ p c, ctx.chunkMap p = some c → c.position = p) ∧
  ctx.chunkMap ctx.currentChunk.position = some ctx.currentChunk

/-- Embeds `Context::new`. -/
def Context.new (m : ChunkMap) (startChunk : ChunkPosition) : Option Context :=
  match m startChunk with
  | some c => some ⟨c, m⟩
  | none => none

/-- Embeds `Context::chunk_at_mut`: cache hit returns the cached chunk with
no map access; otherwise one map lookup, updating the cache.  Returns the
chunk together with the context after the cache update (the source mutates
`self`). -/
def Context.chunkAtMut (ctx : Context) (pos : ChunkPosition) : Option (Chunk × Context) :=
  if pos = ctx.currentChunk.position then
    some (ctx.currentChunk, ctx)
  else
    match ctx.chunkMap pos with
    | some c => some (c, { ctx with currentChunk := c })
    | none => none

/-- Embeds `Context::block_light_at`: 0 when the chunk is not loaded. -/
def Context.blockLightAt (ctx : Context) (pos : BlockPosition) : Nat × Context :=
  match ctx.chunkAtMut pos.chunkPos with
  | some r => (r.1.blockLightAt (chunkRelativePos pos), r.2)
  | none => (0, ctx)

/-- Embeds `Context::set_block_light_at`: no-op when the chunk is not
loaded.  The write through the cached `&mut Chunk` mutates the chunk owned
by the map, so both the cache and the map entry are updated. -/
def Context.setBlockLightAt (ctx : Context) (pos : BlockPosition) (value : Nat) : Context :=
  match ctx.chunkAtMut pos.chunkPos with
  | some r =>
      let c' := r.1.setBlockLightAt (chunkRelativePos pos) value
      { currentChunk := c',
        chunkMap := fun q => if q = r.1.position then some c' else r.2.chunkMap q }
  | none => ctx

/-- Embeds `Context::block_at`: `Block::Air` when the chunk is not loaded. -/
def Context.blockAt (ctx : Context) (pos : BlockPosition) : Block × Context :=
  match ctx.chunkAtMut pos.chunkPos with
  | some r => (r.1.blockAt (chunkRelativePos pos), r.2)
  | none => (.air, ctx)

/-- Pure observer: the light value the world stores at a block position
(0 when the chunk is unloaded).  Depends only on the chunk map, not on the
cache. -/
def lightValue (ctx : Context) (pos : BlockPosition) : Nat :=
  match ctx.chunkMap pos.chunkPos with
  | some c => c.blockLight (chunkRelativePos pos)
  | none => 0

/-- Pure observer: the block the world stores at a block position (air when
the chunk is unloaded). -/
def blockValue (ctx : Context) (pos : BlockPosition) : Block :=
  match ctx.chunkMap pos.chunkPos with
  | some c => c.blocks (chunkRelativePos pos)
  | none => .air

/-- Embeds `adjacent_blocks`: the up to six axis-aligned neighbors of a
position (the source parameter is named `to`, a reserved word here),
excluding any whose vertical coordinate lies outside 0..=256. -/
def adjacentBlocks (p : BlockPosition) : List BlockPosition :=
  (([(-1, 0, 0), (1, 0, 0), (0, -1, 0), (0, 1, 0), (0, 0, -1), (0, 0, 1)] :
      List (Int × Int × Int)).map
    (fun o => BlockPosition.mk (p.x + o.1) (p.y + o.2.1) (p.z + o.2.2))).filter
    (fun pos => decide (0 ≤ pos.y) && decide (pos.y ≤ 256))

/-- Embeds `Iterator::max` over a list of light values: `none` exactly when
the list is empty (where the source's `.unwrap()` would panic). -/
def listMax? : List Nat → Option Nat
  | [] => none
  | a :: rest => some (rest.foldl Nat.max a)

/-- Embeds the stateful closure of the `map` over adjacent positions in
`opaque_non_emitting_removal`: reads one light value, collecting the
values while threading the context (each `block_light_at` call may move
the chunk cache). -/
def collectLights (acc : List Nat × Context) (pos : BlockPosition) :
    List Nat × Context :=
  let r := acc.2.blockLightAt pos
  (acc.1 ++ [r.1], r.2)

/-- Embeds `opaque_non_emitting_removal` (algorithm #4): set the position's
light to the highest adjacent light value, minus one if positive.  The
source unwraps the maximum of the adjacent values; `none` models the panic
on an empty neighbor list. -/
def solidNonEmittingRemoval (context : Context) (position : BlockPosition) :
    Option Context :=
  let adjacent := adjacentBlocks position
  let folded := adjacent.foldl collectLights (([] : List Nat), context)
  match listMax? folded.1 with
  | none => none
  | some v =>
      let value := if 0 < v then v - 1 else v
      some (folded.2.setBlockLightAt position value)

/-- Observable events of a flood-fill run, in execution order: a position
is popped off the queue and processed (`dequeue`), a candidate neighbor
exceeds the distance bound and sets the `finished` flag (`exceed`), a
newly reached solid (opaque) position is recorded but not expanded
(`solid`), or the visitor closure is invoked on an admitted position and
the position is pushed onto the queue (`visit`). -/
inductive FillEvent where
  | dequeue (pos : BlockPosition)
  | exceed (pos : BlockPosition)
  | solid (pos : BlockPosition)
  | visit (pos : BlockPosition)
deriving DecidableEq, Repr

/-- Flood-fill loop state: the context, the `touched` visited set (the
source uses a `HashSet`; we keep a list and test membership), the FIFO
queue (`VecDeque`), and the early-termination flag. -/
structure FillState where
  ctx : Context
  touched : List BlockPosition
  queue : List BlockPosition
  finished : Bool

/-- Embeds the body of the `for_each` over `adjacent_blocks(pos)` inside
`flood_fill`: for each candidate neighbor in order, first the distance
check (setting `finished` on excess), then the visited-set check, then the
opacity check, and finally the visitor call and queue push.  The closure's
`return` only skips one element, so the iteration always runs over the
whole list even after `finished` is set. -/
def floodFillStep (func : Context → BlockPosition → Context) (start : BlockPosition)
    (maxDist : Nat) (st : FillState) :
    List BlockPosition → FillState × List FillEvent
  | [] => (st, [])
  | pos :: rest =>
    if maxDist < pos.manhattanDistance start then
      let r := floodFillStep func start maxDist { st with finished := true } rest
      (r.1, .exceed pos :: r.2)
    else if pos ∈ st.touched then
      floodFillStep func start maxDist st rest
    else
      let b := st.ctx.blockAt pos
      if b.1.isSolid then
        let r := floodFillStep func start maxDist
          { st with touched := pos :: st.touched, ctx := b.2 } rest
        (r.1, .solid pos :: r.2)
      else
        let r := floodFillStep func start maxDist
          { st with touched := pos :: st.touched, ctx := func b.2 pos,
                    queue := st.queue ++ [pos] } rest
        (r.1, .visit pos :: r.2)

/-- Embeds the `while let Some(pos) = queue.pop_front()` loop of
`flood_fill`.  The source pops, then breaks if `finished` (the popped
position is discarded unprocessed, producing no event).  The loop
terminates on its own because the queue only grows with freshly touched
positions inside the bounded ball; the explicit fuel makes the recursion
structural, and every theorem below holds for every fuel value. -/
def floodFillLoop (func : Context → BlockPosition → Context) (start : BlockPosition)
    (maxDist : Nat) : Nat → FillState → FillState × List FillEvent
  | 0, st => (st, [])
  | fuel + 1, st =>
    match st.queue with
    | [] => (st, [])
    | pos :: rest =>
      if st.finished then ({ st with queue := rest }, [])
      else
        let st₁ : FillState := { st with queue := rest }
        let r := floodFillStep func start maxDist st₁ (adjacentBlocks pos)
        let r' := floodFillLoop func start maxDist fuel r.1
        (r'.1, .dequeue pos :: (r.2 ++ r'.2))

/-- Embeds `flood_fill(ctx, start, max_dist, func)`: the start position is
pre-inserted into the visited set and pushed onto the queue. -/
def floodFill (func : Context → BlockPosition → Context) (ctx : Context)
    (start : BlockPosition) (maxDist : Nat) (fuel : Nat) :
    FillState × List FillEvent :=
  floodFillLoop func start maxDist fuel
    { ctx := ctx, touched := [start], queue := [start], finished := false }

/-- The event trace of a flood-fill run. -/
def floodFillEvents (func : Context → BlockPosition → Context) (ctx : Context)
    (start : BlockPosition) (maxDist : Nat) (fuel : Nat) : List FillEvent :=
  (floodFill func ctx start maxDist fuel).2

/-- The positions a list of events invokes the visitor on, in order. -/
def visitsOf (evs : List FillEvent) : List BlockPosition :=
  evs.filterMap fun e =>
    match e with
    | .visit p => some p
    | _ => none

/-- The positions a list of events inserts into the visited set, in order
(both admitted and solid-skipped positions). -/
def touchesOf (evs : List FillEvent) : List BlockPosition :=
  evs.filterMap fun e =>
    match e with
    | .visit p => some p
    | .solid p => some p
    | _ => none

/-- The positions the visitor is invoked on during a flood-fill run, in
invocation order. -/
def floodFillVisits (func : Context → BlockPosition → Context) (ctx : Context)
    (start : BlockPosition) (maxDist : Nat) (fuel : Nat) : List BlockPosition :=
  visitsOf (floodFillEvents func ctx start maxDist fuel)

/-- Decides whether, after the first `exceed` event, no position is ever
dequeued again. -/
def noDequeueAfterExceed : List FillEvent → Bool
  | [] => true
  | e :: rest =>
    match e with
    | .exceed _ => rest.all fun e' =>
        match e' with
        | .dequeue _ => false
        | _ => true
    | _ => noDequeueAfterExceed rest

/-- Decides whether some `visit` event occurs after an `exceed` event. -/
def visitAfterExceed : List FillEvent → Bool
  | [] => false
  | e :: rest =>
    match e with
    | .exceed _ => rest.any fun e' =>
        match e' with
        | .visit _ => true
        | _ => false
    | _ => visitAfterExceed rest

/-! ## Concrete worlds used by witnesses and counterexamples -/

/-- A 3x3 grid of freshly generated (all-air, zero-light) chunks around the
origin, as built by the `chunk_map()` helper of the source's tests. -/
def testMap : ChunkMap := fun p =>
  if -1 ≤ p.x ∧ p.x ≤ 1 ∧ -1 ≤ p.z ∧ p.z ≤ 1 then some (Chunk.new p) else none

/-- Context over `testMap` with the chunk at the origin cached, as built by
`Context::new(&mut chunk_map, ChunkPosition::new(0, 0))` in the tests. -/
def testCtx : Context := ⟨Chunk.new ⟨0, 0⟩, testMap⟩

/-- Chunk for the flood-fill counterexamples: everything stone except five
open cells forming a corridor (8,100,8) → (8,99,8) → (8,99,7) → (9,99,7)
with the cell (9,100,7) reachable only through (9,99,7). -/
def corridorChunk : Chunk :=
  { position := ⟨0, 0⟩
    blockLight := fun _ => 0
    blocks := fun q =>
      if q = (8, 100, 8) ∨ q = (8, 99, 8) ∨ q = (8, 99, 7) ∨
          q = (9, 99, 7) ∨ q = (9, 100, 7) then Block.air else Block.stone }

/-- Chunk map holding only `corridorChunk`. -/
def corridorMap : ChunkMap := fun p => if p = ⟨0, 0⟩ then some corridorChunk else none

/-- Context over the corridor world. -/
def corridorCtx : Context := ⟨corridorChunk, corridorMap⟩

/-- Start position of the corridor flood fills. -/
def corridorStart : BlockPosition := ⟨8, 100, 8⟩

/-- Chunk for the algorithm-4 counterexample: all air, light 5 stored at
local coordinate (0,1,0). -/
def edgeChunk : Chunk :=
  { position := ⟨0, 0⟩
    blockLight := fun q => if q = (0, 1, 0) then 5 else 0
    blocks := fun _ => Block.air }

/-- Chunk map holding only `edgeChunk`: the chunk at (-1,0) is absent. -/
def edgeMap : ChunkMap := fun p => if p = ⟨0, 0⟩ then some edgeChunk else none

/-- Context over the edge world. -/
def edgeCtx : Context := ⟨edgeChunk, edgeMap⟩

/-- Chunk at the origin for the algorithm-4 witness, holding the lights of
the source's `test_opaque_non_emitting_removal` scenario that fall inside
chunk (0,0): 10 below, 9 above, 8 at +x, 15 at the target itself. -/
def removalChunkA : Chunk :=
  { position := ⟨0, 0⟩
    blockLight := fun q =>
      if q = (0, 0, 0) then 10 else if q = (0, 2, 0) then 9
      else if q = (1, 1, 0) then 8 else if q = (0, 1, 0) then 15 else 0
    blocks := fun _ => Block.air }

/-- Chunk at (-1,0) for the algorithm-4 witness: light 11 at world position
(-1,1,0) (local (15,1,0)). -/
def removalChunkB : Chunk :=
  { position := ⟨-1, 0⟩
    blockLight := fun q => if q = (15, 1, 0) then 11 else 0
    blocks := fun _ => Block.air }

/-- Chunk at (0,-1) for the algorithm-4 witness: light 12 at world position
(0,1,-1) (local (0,1,15)). -/
def removalChunkC : Chunk :=
  { position := ⟨0, -1⟩
    blockLight := fun q => if q = (0, 1, 15) then 12 else 0
    blocks := fun _ => Block.air }

/-- Chunk map of the algorithm-4 witness world. -/
def removalMap : ChunkMap := fun p =>
  if p = ⟨0, 0⟩ then some removalChunkA
  else if p = ⟨-1, 0⟩ then some removalChunkB
  else if p = ⟨0, -1⟩ then some removalChunkC
  else none

/-- Context over the algorithm-4 witness world: the six neighbors of
(0,1,0) carry the lights {10, 9, 8, 11, 0, 12} of the source test. -/
def removalCtx : Context := ⟨removalChunkA, removalMap⟩

/-- Invariant of the flood-fill loop used in the breadth-first-order
analysis: writing `S` for the start position followed by the positions
visited so far, the queue is the unprocessed suffix of `S`, all in-range
neighbors of processed positions are already discovered, the visited set
realizes `S`, `S` is sorted by Manhattan distance from the start and free
of duplicates with every member inside the ball and the vertical slab, the
queue is within one step of its front, and the context stays well-formed
with the original block data. -/
def BfsInv (start : BlockPosition) (maxDist : Nat) (ctx₀ : Context)
    (st : FillState) (visits : List BlockPosition) : Prop :=
  (∃ i, i ≤ (start :: visits).length ∧ st.queue = (start :: visits).drop i ∧
    ∀ p ∈ (start :: visits).take i, ∀ q ∈ adjacentBlocks p,
      q.manhattanDistance start ≤ maxDist → q ∈ start :: visits) ∧
  (∀ p, p ∈ st.touched ↔ p ∈ start :: visits) ∧
  List.Pairwise (fun a b => a.manhattanDistance start ≤ b.manhattanDistance start)
    (start :: visits) ∧
  (∀ p ∈ start :: visits, p = start ∨
    (1 ≤ p.manhattanDistance start ∧ p.manhattanDistance start ≤ maxDist ∧
      0 ≤ p.y ∧ p.y ≤ 256)) ∧
  (start :: visits).Nodup ∧
  (∀ p ∈ st.queue, ∀ f, st.queue.head? = some f →
    p.manhattanDistance start ≤ f.manhattanDistance start + 1) ∧
  st.ctx.Wf ∧
  (∀ q, blockValue st.ctx q = blockValue ctx₀ q)

/-! ## Lemmas about the spatial grid accessor -/

theorem lightValue_congr {ctx ctx' : Context} (h : ctx.chunkMap = ctx'.chunkMap)
    (q : BlockPosition) : lightValue ctx q = lightValue ctx' q := by
  unfold lightValue
  rw [h]

theorem blockValue_congr {ctx ctx' : Context} (h : ctx.chunkMap = ctx'.chunkMap)
    (q : BlockPosition) : blockValue ctx q = blockValue ctx' q := by
  unfold blockValue
  rw [h]

theorem Context.chunkAtMut_some {ctx : Context} {pos : ChunkPosition} (hWf : ctx.Wf)
    (c : Chunk) (ctx' : Context) (h : ctx.chunkAtMut pos = some (c, ctx')) :
    ctx.chunkMap pos = some c ∧ ctx'.currentChunk = c ∧ ctx'.chunkMap = ctx.chunkMap ∧
      ctx'.Wf ∧ c.position = pos := by
  unfold Context.chunkAtMut at h
  split at h
  · next heq =>
    simp only [Option.some.injEq, Prod.mk.injEq] at h
    obtain ⟨rfl, rfl⟩ := h
    exact ⟨by rw [heq]; exact hWf.2, rfl, rfl, hWf, heq.symm⟩
  · next heq =>
    cases hm : ctx.chunkMap pos with
    | none => rw [hm] at h; simp at h
    | some c₀ =>
      rw [hm] at h
      simp only [Option.some.injEq, Prod.mk.injEq] at h
      obtain ⟨rfl, rfl⟩ := h
      have hposc : c₀.position = pos := hWf.1 pos c₀ hm
      refine ⟨rfl, rfl, rfl, ⟨hWf.1, ?_⟩, hposc⟩
      rw [hposc]
      exact hm


theorem Context.chunkAtMut_none {ctx : Context} {pos : ChunkPosition} (hWf : ctx.Wf) :
    ctx.chunkAtMut pos = none ↔ ctx.chunkMap pos = none := by
  unfold Context.chunkAtMut
  split
  · next heq =>
    simp only [heq]
    simp [hWf.2]
  · cases hm : ctx.chunkMap pos <;> simp

theorem Context.chunkAtMut_hit {ctx : Context} {pos : ChunkPosition}
    (h : pos = ctx.currentChunk.position) :
    ctx.chunkAtMut pos = some (ctx.currentChunk, ctx) := by
  unfold Context.chunkAtMut
  simp [h]

theorem Context.blockLightAt_unloaded {ctx : Context} {pos : BlockPosition} (hWf : ctx.Wf)
    (h : ctx.chunkMap pos.chunkPos = none) : ctx.blockLightAt pos = (0, ctx) := by
  unfold Context.blockLightAt
  rw [(Context.chunkAtMut_none hWf).mpr h]

theorem Context.blockAt_unloaded {ctx : Context} {pos : BlockPosition} (hWf : ctx.Wf)
    (h : ctx.chunkMap pos.chunkPos = none) : ctx.blockAt pos = (Block.air, ctx) := by
  unfold Context.blockAt
  rw [(Context.chunkAtMut_none hWf).mpr h]

theorem Context.setBlockLightAt_unloaded {ctx : Context} {pos : BlockPosition} (hWf : ctx.Wf)
    (h : ctx.chunkMap pos.chunkPos = none) (v : Nat) : ctx.setBlockLightAt pos v = ctx := by
  unfold Context.setBlockLightAt
  rw [(Context.chunkAtMut_none hWf).mpr h]

theorem Context.blockLightAt_fst {ctx : Context} {pos : BlockPosition} (hWf : ctx.Wf) :
    (ctx.blockLightAt pos).1 = lightValue ctx pos := by
  unfold Context.blockLightAt
  cases h : ctx.chunkAtMut pos.chunkPos with
  | none =>
    simp [lightValue, (Context.chunkAtMut_none hWf).mp h]
  | some r =>
    obtain ⟨hm, _, _, _, _⟩ := Context.chunkAtMut_some hWf r.1 r.2
      (by rw [h])
    simp [lightValue, hm, Chunk.blockLightAt]

theorem Context.blockLightAt_snd {ctx : Context} (pos : BlockPosition) (hWf : ctx.Wf) :
    (ctx.blockLightAt pos).2.chunkMap = ctx.chunkMap ∧ (ctx.blockLightAt pos).2.Wf := by
  unfold Context.blockLightAt
  cases h : ctx.chunkAtMut pos.chunkPos with
  | none => exact ⟨rfl, hWf⟩
  | some r =>
    obtain ⟨_, _, hmap, hwf, _⟩ := Context.chunkAtMut_some hWf r.1 r.2
      (by rw [h])
    exact ⟨hmap, hwf⟩

theorem Context.blockAt_fst {ctx : Context} {pos : BlockPosition} (hWf : ctx.Wf) :
    (ctx.blockAt pos).1 = blockValue ctx pos := by
  unfold Context.blockAt
  cases h : ctx.chunkAtMut pos.chunkPos with
  | none =>
    simp [blockValue, (Context.chunkAtMut_none hWf).mp h]
  | some r =>
    obtain ⟨hm, _, _, _, _⟩ := Context.chunkAtMut_some hWf r.1 r.2
      (by rw [h])
    simp [blockValue, hm, Chunk.blockAt]

theorem Context.blockAt_snd {ctx : Context} (pos : BlockPosition) (hWf : ctx.Wf) :
    (ctx.blockAt pos).2.chunkMap = ctx.chunkMap ∧ (ctx.blockAt pos).2.Wf := by
  unfold Context.blockAt
  cases h : ctx.chunkAtMut pos.chunkPos with
  | none => exact ⟨rfl, hWf⟩
  | some r =>
    obtain ⟨_, _, hmap, hwf, _⟩ := Context.chunkAtMut_some hWf r.1 r.2
      (by rw [h])
    exact ⟨hmap, hwf⟩

/-! ## Lemmas about adjacency and distances -/

theorem mem_adjacentBlocks_iff {p q : BlockPosition} :
    q ∈ adjacentBlocks p ↔
      ((q = ⟨p.x - 1, p.y, p.z⟩ ∨ q = ⟨p.x + 1, p.y, p.z⟩ ∨
        q = ⟨p.x, p.y - 1, p.z⟩ ∨ q = ⟨p.x, p.y + 1, p.z⟩ ∨
        q = ⟨p.x, p.y, p.z - 1⟩ ∨ q = ⟨p.x, p.y, p.z + 1⟩) ∧
       0 ≤ q.y ∧ q.y ≤ 256) := by
  simp only [adjacentBlocks, List.mem_filter, List.mem_map, List.mem_cons,
    List.not_mem_nil, or_false, Bool.and_eq_true, decide_eq_true_eq]
  constructor
  · rintro ⟨⟨o, ho, rfl⟩, hy0, hy1⟩
    refine ⟨?_, hy0, hy1⟩
    rcases ho with rfl | rfl | rfl | rfl | rfl | rfl <;>
      simp [BlockPosition.mk.injEq] <;> omega
  · rintro ⟨hq, hy0, hy1⟩
    refine ⟨?_, hy0, hy1⟩
    rcases hq with rfl | rfl | rfl | rfl | rfl | rfl
    · exact ⟨(-1, 0, 0), by simp, by simp [BlockPosition.mk.injEq]; omega⟩
    · exact ⟨(1, 0, 0), by simp, by simp [BlockPosition.mk.injEq]⟩
    · exact ⟨(0, -1, 0), by simp, by simp [BlockPosition.mk.injEq]; omega⟩
    · exact ⟨(0, 1, 0), by simp, by simp [BlockPosition.mk.injEq]⟩
    · exact ⟨(0, 0, -1), by simp, by simp [BlockPosition.mk.injEq]; omega⟩
    · exact ⟨(0, 0, 1), by simp, by simp [BlockPosition.mk.injEq]⟩

theorem adjacentBlocks_y {p q : BlockPosition} (h : q ∈ adjacentBlocks p) :
    0 ≤ q.y ∧ q.y ≤ 256 :=
  (mem_adjacentBlocks_iff.mp h).2

theorem adjacentBlocks_ne_nil {p : BlockPosition} (h0 : 0 ≤ p.y) (h1 : p.y ≤ 256) :
    adjacentBlocks p ≠ [] := by
  have h : (⟨p.x - 1, p.y, p.z⟩ : BlockPosition) ∈ adjacentBlocks p :=
    mem_adjacentBlocks_iff.mpr ⟨Or.inl rfl, h0, h1⟩
  exact List.ne_nil_of_mem h

theorem manhattanDistance_eq_zero {p q : BlockPosition} :
    p.manhattanDistance q = 0 ↔ p = q := by
  unfold BlockPosition.manhattanDistance
  constructor
  · intro h
    have hx : p.x = q.x := by omega
    have hy : p.y = q.y := by omega
    have hz : p.z = q.z := by omega
    cases p; cases q
    simp_all
  · rintro rfl
    simp

theorem adjacentBlocks_dist {p q s : BlockPosition} (h : q ∈ adjacentBlocks p) :
    q.manhattanDistance s = p.manhattanDistance s + 1 ∨
      q.manhattanDistance s + 1 = p.manhattanDistance s := by
  have hq := (mem_adjacentBlocks_iff.mp h).1
  unfold BlockPosition.manhattanDistance
  rcases hq with rfl | rfl | rfl | rfl | rfl | rfl <;> simp <;> omega

theorem adjacentBlocks_of_far {p : BlockPosition} (h : p.y ≤ -2 ∨ 258 ≤ p.y) :
    adjacentBlocks p = [] := by
  rw [List.eq_nil_iff_forall_not_mem]
  intro q hq
  have hy := (mem_adjacentBlocks_iff.mp hq).2
  have h1 := (mem_adjacentBlocks_iff.mp hq).1
  rcases h1 with rfl | rfl | rfl | rfl | rfl | rfl <;> simp at hy <;> omega

theorem listMax?_cons (a : Nat) (l : List Nat) :
    listMax? (a :: l) = some (l.foldl Nat.max a) := rfl

theorem foldl_max_zero (a : Nat) (l : List Nat) :
    (a :: l).foldl Nat.max 0 = l.foldl Nat.max a := by
  simp [List.foldl_cons, Nat.zero_max]

theorem Context.setBlockLightAt_lightValue_self {ctx : Context} {pos : BlockPosition}
    (hWf : ctx.Wf) (hl : (ctx.chunkMap pos.chunkPos).isSome = true) (v : Nat) :
    lightValue (ctx.setBlockLightAt pos v) pos = v := by
  unfold Context.setBlockLightAt
  cases h : ctx.chunkAtMut pos.chunkPos with
  | none =>
    rw [Context.chunkAtMut_none hWf] at h
    rw [h] at hl
    simp at hl
  | some r =>
    obtain ⟨hm, _, _, _, hposc⟩ := Context.chunkAtMut_some hWf r.1 r.2
      (by rw [h])
    simp [lightValue, hposc, Chunk.setBlockLightAt]

theorem Chunk.setBlockLightAt_position (c : Chunk) (q : Int × Int × Int) (v : Nat) :
    (c.setBlockLightAt q v).position = c.position := rfl

theorem Context.setBlockLightAt_wf {ctx : Context} {pos : BlockPosition} (hWf : ctx.Wf)
    (v : Nat) : (ctx.setBlockLightAt pos v).Wf := by
  unfold Context.setBlockLightAt
  cases h : ctx.chunkAtMut pos.chunkPos with
  | none => exact hWf
  | some r =>
    obtain ⟨hm, hcur, hmap, hwf, hposc⟩ := Context.chunkAtMut_some hWf r.1 r.2 (by rw [h])
    constructor
    · intro p c hpc
      simp only at hpc
      split_ifs at hpc with hp
      · cases hpc
        rw [Chunk.setBlockLightAt_position]
        exact hp.symm
      · exact hwf.1 p c hpc
    · simp [Chunk.setBlockLightAt_position]

/-! ## Well-formedness of the concrete worlds -/

theorem testCtx_wf : testCtx.Wf := by
  constructor
  · intro p c h
    simp only [testCtx, testMap] at h
    split_ifs at h
    · cases h
      rfl
  · rfl

theorem corridorCtx_wf : corridorCtx.Wf := by
  constructor
  · intro p c h
    simp only [corridorCtx, corridorMap] at h
    split_ifs at h with h1
    cases h
    rw [h1]
    rfl
  · rfl

theorem edgeCtx_wf : edgeCtx.Wf := by
  constructor
  · intro p c h
    simp only [edgeCtx, edgeMap] at h
    split_ifs at h with h1
    cases h
    rw [h1]
    rfl
  · rfl

theorem removalCtx_wf : removalCtx.Wf := by
  constructor
  · intro p c h
    simp only [removalCtx, removalMap] at h
    split_ifs at h with h1 h2 h3 <;> cases h
    · rw [h1]; rfl
    · rw [h2]; rfl
    · rw [h3]; rfl
  · rfl

/-! ## Behavior of algorithm 4 -/

theorem collectLights_foldl (l : List BlockPosition) :
    ∀ acc : List Nat × Context, acc.2.Wf →
      (l.foldl collectLights acc).1 = acc.1 ++ l.map (lightValue acc.2) ∧
      (l.foldl collectLights acc).2.chunkMap = acc.2.chunkMap ∧
      (l.foldl collectLights acc).2.Wf := by
  induction l with
  | nil =>
    intro acc h
    simp [h]
  | cons p rest ih =>
    intro acc h
    simp only [List.foldl_cons]
    have h1 : (acc.2.blockLightAt p).1 = lightValue acc.2 p := Context.blockLightAt_fst h
    have h2 := Context.blockLightAt_snd p h
    have hcl : collectLights acc p = (acc.1 ++ [lightValue acc.2 p], (acc.2.blockLightAt p).2) := by
      simp [collectLights, h1]
    obtain ⟨ha, hb, hc⟩ := ih (collectLights acc p) (by rw [hcl]; exact h2.2)
    have hlv : ∀ q, lightValue (acc.2.blockLightAt p).2 q = lightValue acc.2 q :=
      fun q => lightValue_congr h2.1 q
    refine ⟨?_, ?_, hc⟩
    · rw [ha, hcl]
      simp [hlv]
    · rw [hb, hcl]
      exact h2.1

theorem solidNonEmittingRemoval_spec {ctx : Context} {p : BlockPosition} (hWf : ctx.Wf)
    (h0 : 0 ≤ p.y) (h1 : p.y ≤ 256) :
    ∃ ctx', solidNonEmittingRemoval ctx p = some ctx' ∧ ctx'.Wf ∧
      ((ctx.chunkMap p.chunkPos).isSome = true →
        lightValue ctx' p = (((adjacentBlocks p).map (lightValue ctx)).foldl Nat.max 0) - 1) := by
  obtain ⟨ha, hb, hc⟩ := collectLights_foldl (adjacentBlocks p) ([], ctx) hWf
  simp only [List.nil_append] at ha
  have hmax : listMax? ((adjacentBlocks p).foldl collectLights ([], ctx)).1 =
      some (((adjacentBlocks p).map (lightValue ctx)).foldl Nat.max 0) := by
    rw [ha]
    cases hadj : adjacentBlocks p with
    | nil => exact absurd hadj (adjacentBlocks_ne_nil h0 h1)
    | cons a l => simp [List.map_cons, listMax?_cons, foldl_max_zero]
  have hval : solidNonEmittingRemoval ctx p =
      some ((((adjacentBlocks p).foldl collectLights (([] : List Nat), ctx)).2).setBlockLightAt p
        (if 0 < ((adjacentBlocks p).map (lightValue ctx)).foldl Nat.max 0 then
          ((adjacentBlocks p).map (lightValue ctx)).foldl Nat.max 0 - 1
        else ((adjacentBlocks p).map (lightValue ctx)).foldl Nat.max 0)) := by
    simp only [solidNonEmittingRemoval]
    rw [hmax]
  refine ⟨_, hval, Context.setBlockLightAt_wf hc _, ?_⟩
  intro hl
  have hl' : ((((adjacentBlocks p).foldl collectLights (([] : List Nat), ctx)).2).chunkMap
      p.chunkPos).isSome = true := by
    rw [hb]
    exact hl
  rw [Context.setBlockLightAt_lightValue_self hc hl']
  split
  · rfl
  · next hn =>
    omega

theorem collectLights_foldl_length (l : List BlockPosition) :
    ∀ acc : List Nat × Context,
      (l.foldl collectLights acc).1.length = acc.1.length + l.length := by
  induction l with
  | nil => intro acc; simp
  | cons p rest ih =>
    intro acc
    rw [List.foldl_cons, ih]
    simp [collectLights]
    omega

/-! ## Event-trace helpers -/

@[simp]
theorem visitsOf_nil : visitsOf [] = [] := rfl

@[simp]
theorem visitsOf_cons_dequeue (p : BlockPosition) (l : List FillEvent) :
    visitsOf (.dequeue p :: l) = visitsOf l := rfl

@[simp]
theorem visitsOf_cons_exceed (p : BlockPosition) (l : List FillEvent) :
    visitsOf (.exceed p :: l) = visitsOf l := rfl

@[simp]
theorem visitsOf_cons_solid (p : BlockPosition) (l : List FillEvent) :
    visitsOf (.solid p :: l) = visitsOf l := rfl

@[simp]
theorem visitsOf_cons_visit (p : BlockPosition) (l : List FillEvent) :
    visitsOf (.visit p :: l) = p :: visitsOf l := rfl

@[simp]
theorem visitsOf_append (l₁ l₂ : List FillEvent) :
    visitsOf (l₁ ++ l₂) = visitsOf l₁ ++ visitsOf l₂ := by
  simp [visitsOf]

@[simp]
theorem touchesOf_nil : touchesOf [] = [] := rfl

@[simp]
theorem touchesOf_cons_dequeue (p : BlockPosition) (l : List FillEvent) :
    touchesOf (.dequeue p :: l) = touchesOf l := rfl

@[simp]
theorem touchesOf_cons_exceed (p : BlockPosition) (l : List FillEvent) :
    touchesOf (.exceed p :: l) = touchesOf l := rfl

@[simp]
theorem touchesOf_cons_solid (p : BlockPosition) (l : List FillEvent) :
    touchesOf (.solid p :: l) = p :: touchesOf l := rfl

@[simp]
theorem touchesOf_cons_visit (p : BlockPosition) (l : List FillEvent) :
    touchesOf (.visit p :: l) = p :: touchesOf l := rfl

@[simp]
theorem touchesOf_append (l₁ l₂ : List FillEvent) :
    touchesOf (l₁ ++ l₂) = touchesOf l₁ ++ touchesOf l₂ := by
  simp [touchesOf]

theorem visitsOf_sublist_touchesOf (l : List FillEvent) :
    (visitsOf l).Sublist (touchesOf l) := by
  induction l with
  | nil => simp
  | cons e rest ih =>
    cases e with
    | dequeue p => simpa using ih
    | exceed p => simpa using ih
    | solid p => simpa using ih.cons p
    | visit p => simpa using ih.cons₂ p

theorem mem_touchesOf_of_visit {p : BlockPosition} {l : List FillEvent} :
    FillEvent.visit p ∈ l → p ∈ touchesOf l := by
  induction l with
  | nil => intro h; simp at h
  | cons e rest ih =>
    intro h
    rcases List.mem_cons.mp h with h' | h'
    · subst h'
      simp
    · cases e <;> simp [ih h']

theorem mem_touchesOf_of_solid {p : BlockPosition} {l : List FillEvent} :
    FillEvent.solid p ∈ l → p ∈ touchesOf l := by
  induction l with
  | nil => intro h; simp at h
  | cons e rest ih =>
    intro h
    rcases List.mem_cons.mp h with h' | h'
    · subst h'
      simp
    · cases e <;> simp [ih h']

/-! ## Batch lemmas: one pass of the neighbor loop inside `flood_fill` -/

section FloodFillStep

variable (func : Context → BlockPosition → Context) (start : BlockPosition) (maxDist : Nat)

theorem step_touched_mono : ∀ (ns : List BlockPosition) (st : FillState) (p : BlockPosition),
    p ∈ st.touched → p ∈ (floodFillStep func start maxDist st ns).1.touched := by
  intro ns
  induction ns with
  | nil => intro st p h; exact h
  | cons pos rest ih =>
    intro st p h
    simp only [floodFillStep]
    split_ifs with h1 h2 h3
    · exact ih _ p h
    · exact ih _ p h
    · exact ih _ p (List.mem_cons_of_mem _ h)
    · exact ih _ p (List.mem_cons_of_mem _ h)

theorem step_touched_iff : ∀ (ns : List BlockPosition) (st : FillState) (p : BlockPosition),
    p ∈ (floodFillStep func start maxDist st ns).1.touched ↔
      p ∈ st.touched ∨ p ∈ touchesOf (floodFillStep func start maxDist st ns).2 := by
  intro ns
  induction ns with
  | nil => intro st p; simp [floodFillStep]
  | cons pos rest ih =>
    intro st p
    simp only [floodFillStep]
    split_ifs with h1 h2 h3 <;> simp [ih, List.mem_cons] <;> tauto

theorem step_queue : ∀ (ns : List BlockPosition) (st : FillState),
    (floodFillStep func start maxDist st ns).1.queue =
      st.queue ++ visitsOf (floodFillStep func start maxDist st ns).2 := by
  intro ns
  induction ns with
  | nil => intro st; simp [floodFillStep]
  | cons pos rest ih =>
    intro st
    simp only [floodFillStep]
    split_ifs with h1 h2 h3 <;> simp [ih]

theorem step_touches_new : ∀ (ns : List BlockPosition) (st : FillState),
    (touchesOf (floodFillStep func start maxDist st ns).2).Nodup ∧
      ∀ p ∈ touchesOf (floodFillStep func start maxDist st ns).2, p ∉ st.touched := by
  intro ns
  induction ns with
  | nil => intro st; simp [floodFillStep]
  | cons pos rest ih =>
    intro st
    simp only [floodFillStep]
    split_ifs with h1 h2 h3
    · simpa using ih _
    · simpa using ih _
    · obtain ⟨hnd, hnew⟩ := ih (FillState.mk (st.ctx.blockAt pos).2 (pos :: st.touched)
        st.queue st.finished)
      simp only [List.mem_cons] at hnew
      constructor
      · simp only [touchesOf_cons_solid]
        refine List.nodup_cons.mpr ⟨fun hmem => ?_, hnd⟩
        exact hnew pos hmem (Or.inl rfl)
      · simp only [touchesOf_cons_solid]
        intro p hp
        rcases List.mem_cons.mp hp with rfl | hp
        · exact h2
        · intro hst
          exact hnew p hp (Or.inr hst)
    · obtain ⟨hnd, hnew⟩ := ih (FillState.mk (func (st.ctx.blockAt pos).2 pos)
        (pos :: st.touched) (st.queue ++ [pos]) st.finished)
      simp only [List.mem_cons] at hnew
      constructor
      · simp only [touchesOf_cons_visit]
        refine List.nodup_cons.mpr ⟨fun hmem => ?_, hnd⟩
        exact hnew pos hmem (Or.inl rfl)
      · simp only [touchesOf_cons_visit]
        intro p hp
        rcases List.mem_cons.mp hp with rfl | hp
        · exact h2
        · intro hst
          exact hnew p hp (Or.inr hst)

theorem step_touches_mem : ∀ (ns : List BlockPosition) (st : FillState) (p : BlockPosition),
    p ∈ touchesOf (floodFillStep func start maxDist st ns).2 →
      p ∈ ns ∧ p.manhattanDistance start ≤ maxDist := by
  intro ns
  induction ns with
  | nil => intro st p h; simp [floodFillStep] at h
  | cons pos rest ih =>
    intro st p h
    simp only [floodFillStep] at h
    split_ifs at h with h1 h2 h3
    · obtain ⟨hm, hd⟩ := ih _ p (by simpa using h)
      exact ⟨List.mem_cons_of_mem _ hm, hd⟩
    · obtain ⟨hm, hd⟩ := ih _ p (by simpa using h)
      exact ⟨List.mem_cons_of_mem _ hm, hd⟩
    · rw [touchesOf_cons_solid] at h
      rcases List.mem_cons.mp h with rfl | h
      · exact ⟨List.mem_cons_self _ _, by omega⟩
      · obtain ⟨hm, hd⟩ := ih _ p h
        exact ⟨List.mem_cons_of_mem _ hm, hd⟩
    · rw [touchesOf_cons_visit] at h
      rcases List.mem_cons.mp h with rfl | h
      · exact ⟨List.mem_cons_self _ _, by omega⟩
      · obtain ⟨hm, hd⟩ := ih _ p h
        exact ⟨List.mem_cons_of_mem _ hm, hd⟩

theorem step_exceed_mem : ∀ (ns : List BlockPosition) (st : FillState) (p : BlockPosition),
    FillEvent.exceed p ∈ (floodFillStep func start maxDist st ns).2 →
      p ∈ ns ∧ maxDist < p.manhattanDistance start := by
  intro ns
  induction ns with
  | nil => intro st p h; simp [floodFillStep] at h
  | cons pos rest ih =>
    intro st p h
    simp only [floodFillStep] at h
    split_ifs at h with h1 h2 h3
    · simp only [List.mem_cons] at h
      rcases h with h | h
      · cases h
        exact ⟨List.mem_cons_self _ _, h1⟩
      · obtain ⟨hm, hd⟩ := ih _ p h
        exact ⟨List.mem_cons_of_mem _ hm, hd⟩
    · obtain ⟨hm, hd⟩ := ih _ p h
      exact ⟨List.mem_cons_of_mem _ hm, hd⟩
    · simp only [List.mem_cons] at h
      rcases h with h | h
      · cases h
      · obtain ⟨hm, hd⟩ := ih _ p h
        exact ⟨List.mem_cons_of_mem _ hm, hd⟩
    · simp only [List.mem_cons] at h
      rcases h with h | h
      · cases h
      · obtain ⟨hm, hd⟩ := ih _ p h
        exact ⟨List.mem_cons_of_mem _ hm, hd⟩

theorem step_no_dequeue : ∀ (ns : List BlockPosition) (st : FillState) (p : BlockPosition),
    FillEvent.dequeue p ∉ (floodFillStep func start maxDist st ns).2 := by
  intro ns
  induction ns with
  | nil => intro st p h; simp [floodFillStep] at h
  | cons pos rest ih =>
    intro st p h
    simp only [floodFillStep] at h
    split_ifs at h with h1 h2 h3
    · simp only [List.mem_cons] at h
      rcases h with h | h
      · cases h
      · exact ih _ p h
    · exact ih _ p h
    · simp only [List.mem_cons] at h
      rcases h with h | h
      · cases h
      · exact ih _ p h
    · simp only [List.mem_cons] at h
      rcases h with h | h
      · cases h
      · exact ih _ p h

theorem step_finished_mono : ∀ (ns : List BlockPosition) (st : FillState),
    st.finished = true → (floodFillStep func start maxDist st ns).1.finished = true := by
  intro ns
  induction ns with
  | nil => intro st h; exact h
  | cons pos rest ih =>
    intro st h
    simp only [floodFillStep]
    split_ifs with h1 h2 h3
    · exact ih _ rfl
    · exact ih _ h
    · exact ih _ h
    · exact ih _ h

theorem step_finished_of_exceed : ∀ (ns : List BlockPosition) (st : FillState)
    (p : BlockPosition), FillEvent.exceed p ∈ (floodFillStep func start maxDist st ns).2 →
      (floodFillStep func start maxDist st ns).1.finished = true := by
  intro ns
  induction ns with
  | nil => intro st p h; simp [floodFillStep] at h
  | cons pos rest ih =>
    intro st p h
    simp only [floodFillStep] at h ⊢
    split_ifs at h ⊢ with h1 h2 h3
    · exact step_finished_mono func start maxDist rest _ rfl
    · exact ih _ p h
    · simp only [List.mem_cons] at h
      rcases h with h | h
      · cases h
      · exact ih _ p h
    · simp only [List.mem_cons] at h
      rcases h with h | h
      · cases h
      · exact ih _ p h

theorem step_inrange_touched : ∀ (ns : List BlockPosition) (st : FillState)
    (q : BlockPosition), q ∈ ns → q.manhattanDistance start ≤ maxDist →
      q ∈ (floodFillStep func start maxDist st ns).1.touched := by
  intro ns
  induction ns with
  | nil => intro st q h _; simp at h
  | cons pos rest ih =>
    intro st q hq hd
    rcases List.mem_cons.mp hq with rfl | hq
    · simp only [floodFillStep]
      split_ifs with h1 h2 h3
      · omega
      · exact step_touched_mono func start maxDist rest _ q h2
      · exact step_touched_mono func start maxDist rest _ q (List.mem_cons_self _ _)
      · exact step_touched_mono func start maxDist rest _ q (List.mem_cons_self _ _)
    · simp only [floodFillStep]
      split_ifs with h1 h2 h3
      · exact ih _ q hq hd
      · exact ih _ q hq hd
      · exact ih _ q hq hd
      · exact ih _ q hq hd

end FloodFillStep

/-! ## Batch lemmas that track the context through the visitor -/

section FloodFillStepCtx

variable (func : Context → BlockPosition → Context) (start : BlockPosition) (maxDist : Nat)

theorem step_ctx (hfWf : ∀ c p, c.Wf → (func c p).Wf)
    (hfBlocks : ∀ c p q, c.Wf → blockValue (func c p) q = blockValue c q) :
    ∀ (ns : List BlockPosition) (st : FillState), st.ctx.Wf →
    (floodFillStep func start maxDist st ns).1.ctx.Wf ∧
      ∀ q, blockValue (floodFillStep func start maxDist st ns).1.ctx q =
        blockValue st.ctx q := by
  intro ns
  induction ns with
  | nil => intro st h; exact ⟨h, fun _ => rfl⟩
  | cons pos rest ih =>
    intro st h
    simp only [floodFillStep]
    split_ifs with h1 h2 h3
    · exact ih (FillState.mk st.ctx st.touched st.queue true) h
    · exact ih st h
    · have hb := Context.blockAt_snd pos h
      obtain ⟨hw, hv⟩ := ih (FillState.mk (st.ctx.blockAt pos).2 (pos :: st.touched)
        st.queue st.finished) hb.2
      exact ⟨hw, fun q => (hv q).trans (blockValue_congr hb.1 q)⟩
    · have hb := Context.blockAt_snd pos h
      have hw' : (func (st.ctx.blockAt pos).2 pos).Wf := hfWf _ _ hb.2
      obtain ⟨hw, hv⟩ := ih (FillState.mk (func (st.ctx.blockAt pos).2 pos)
        (pos :: st.touched) (st.queue ++ [pos]) st.finished) hw'
      refine ⟨hw, fun q => (hv q).trans ?_⟩
      exact (hfBlocks _ pos q hb.2).trans (blockValue_congr hb.1 q)

theorem step_no_solid (hfWf : ∀ c p, c.Wf → (func c p).Wf)
    (hfBlocks : ∀ c p q, c.Wf → blockValue (func c p) q = blockValue c q) :
    ∀ (ns : List BlockPosition) (st : FillState), st.ctx.Wf →
    (∀ q, (blockValue st.ctx q).isSolid = false) →
    ∀ p, FillEvent.solid p ∉ (floodFillStep func start maxDist st ns).2 := by
  intro ns
  induction ns with
  | nil => intro st _ _ p h; simp [floodFillStep] at h
  | cons pos rest ih =>
    intro st hw hsol p h
    simp only [floodFillStep] at h
    split_ifs at h with h1 h2 h3
    · simp only [List.mem_cons] at h
      rcases h with h | h
      · cases h
      · exact ih (FillState.mk st.ctx st.touched st.queue true) hw hsol p h
    · exact ih st hw hsol p h
    · rw [Context.blockAt_fst hw, hsol pos] at h3
      cases h3
    · simp only [List.mem_cons] at h
      rcases h with h | h
      · cases h
      · have hb := Context.blockAt_snd pos hw
        have hw' : (func (st.ctx.blockAt pos).2 pos).Wf := hfWf _ _ hb.2
        have hsol' : ∀ q, (blockValue (func (st.ctx.blockAt pos).2 pos) q).isSolid = false := by
          intro q
          rw [hfBlocks _ pos q hb.2, blockValue_congr hb.1 q]
          exact hsol q
        exact ih (FillState.mk (func (st.ctx.blockAt pos).2 pos)
          (pos :: st.touched) (st.queue ++ [pos]) st.finished) hw' hsol' p h

theorem step_visit_not_solid (hfWf : ∀ c p, c.Wf → (func c p).Wf)
    (hfBlocks : ∀ c p q, c.Wf → blockValue (func c p) q = blockValue c q) :
    ∀ (ns : List BlockPosition) (st : FillState), st.ctx.Wf →
    ∀ p, FillEvent.visit p ∈ (floodFillStep func start maxDist st ns).2 →
      (blockValue st.ctx p).isSolid = false := by
  intro ns
  induction ns with
  | nil => intro st _ p h; simp [floodFillStep] at h
  | cons pos rest ih =>
    intro st hw p h
    simp only [floodFillStep] at h
    split_ifs at h with h1 h2 h3
    · simp only [List.mem_cons] at h
      rcases h with h | h
      · cases h
      · exact ih (FillState.mk st.ctx st.touched st.queue true) hw p h
    · exact ih st hw p h
    · simp only [List.mem_cons] at h
      rcases h with h | h
      · cases h
      · have hb := Context.blockAt_snd pos hw
        have := ih (FillState.mk (st.ctx.blockAt pos).2 (pos :: st.touched)
          st.queue st.finished) hb.2 p h
        rwa [blockValue_congr hb.1 p] at this
    · simp only [List.mem_cons] at h
      rcases h with h | h
      · cases h
        rw [← Context.blockAt_fst hw]
        simpa using h3
      · have hb := Context.blockAt_snd pos hw
        have hw' : (func (st.ctx.blockAt pos).2 pos).Wf := hfWf _ _ hb.2
        have := ih (FillState.mk (func (st.ctx.blockAt pos).2 pos)
          (pos :: st.touched) (st.queue ++ [pos]) st.finished) hw' p h
        rwa [hfBlocks _ pos p hb.2, blockValue_congr hb.1 p] at this

theorem step_visits_dist (d : Nat) : ∀ (ns : List BlockPosition) (st : FillState),
    (∀ q ∈ ns, q.manhattanDistance start = d + 1 ∨ q.manhattanDistance start + 1 = d) →
    (∀ q ∈ ns, q.manhattanDistance start + 1 = d → q ∈ st.touched) →
    ∀ p, FillEvent.visit p ∈ (floodFillStep func start maxDist st ns).2 →
      p.manhattanDistance start = d + 1 := by
  intro ns
  induction ns with
  | nil => intro st _ _ p h; simp [floodFillStep] at h
  | cons pos rest ih =>
    intro st hd hpre p h
    simp only [floodFillStep] at h
    split_ifs at h with h1 h2 h3
    · simp only [List.mem_cons] at h
      rcases h with h | h
      · cases h
      · exact ih (FillState.mk st.ctx st.touched st.queue true)
          (fun q hq => hd q (List.mem_cons_of_mem _ hq))
          (fun q hq hq1 => hpre q (List.mem_cons_of_mem _ hq) hq1) p h
    · exact ih st (fun q hq => hd q (List.mem_cons_of_mem _ hq))
        (fun q hq hq1 => hpre q (List.mem_cons_of_mem _ hq) hq1) p h
    · simp only [List.mem_cons] at h
      rcases h with h | h
      · cases h
      · exact ih (FillState.mk (st.ctx.blockAt pos).2 (pos :: st.touched) st.queue st.finished)
          (fun q hq => hd q (List.mem_cons_of_mem _ hq))
          (fun q hq hq1 => List.mem_cons_of_mem _ (hpre q (List.mem_cons_of_mem _ hq) hq1)) p h
    · simp only [List.mem_cons] at h
      rcases h with h | h
      · cases h
        rcases hd pos (List.mem_cons_self _ _) with h' | h'
        · exact h'
        · exact absurd (hpre pos (List.mem_cons_self _ _) h') h2
      · exact ih (FillState.mk (func (st.ctx.blockAt pos).2 pos) (pos :: st.touched)
          (st.queue ++ [pos]) st.finished)
          (fun q hq => hd q (List.mem_cons_of_mem _ hq))
          (fun q hq hq1 => List.mem_cons_of_mem _ (hpre q (List.mem_cons_of_mem _ hq) hq1)) p h

end FloodFillStepCtx

/-! ## More event-trace helpers -/

theorem mem_visitsOf_iff {p : BlockPosition} {l : List FillEvent} :
    p ∈ visitsOf l ↔ FillEvent.visit p ∈ l := by
  induction l with
  | nil => simp
  | cons e rest ih => cases e <;> simp [ih]

theorem solid_visit_disjoint {l : List FillEvent} (hnd : (touchesOf l).Nodup)
    {p : BlockPosition} : FillEvent.solid p ∈ l → FillEvent.visit p ∉ l := by
  induction l with
  | nil => intro h; simp at h
  | cons e rest ih =>
    intro hs hv
    rcases List.mem_cons.mp hs with hs' | hs' <;> rcases List.mem_cons.mp hv with hv' | hv'
    · rw [← hv'] at hs'
      cases hs'
    · subst hs'
      rw [touchesOf_cons_solid, List.nodup_cons] at hnd
      exact hnd.1 (mem_touchesOf_of_visit hv')
    · rw [← hv', touchesOf_cons_visit, List.nodup_cons] at hnd
      exact hnd.1 (mem_touchesOf_of_solid hs')
    · have hnd' : (touchesOf rest).Nodup := by
        cases e <;> simp only [touchesOf_cons_dequeue, touchesOf_cons_exceed,
          touchesOf_cons_solid, touchesOf_cons_visit, List.nodup_cons] at hnd <;>
          first
          | exact hnd
          | exact hnd.2
      exact ih hnd' hs' hv'

theorem ndae_of_no_dequeue {l : List FillEvent}
    (h : ∀ p, FillEvent.dequeue p ∉ l) : noDequeueAfterExceed l = true := by
  induction l with
  | nil => rfl
  | cons e rest ih =>
    cases e with
    | dequeue p => exact absurd (List.mem_cons_self _ _) (h p)
    | exceed p =>
      simp only [noDequeueAfterExceed, List.all_eq_true]
      intro e' he'
      cases e' with
      | dequeue q => exact absurd (List.mem_cons_of_mem _ he') (h q)
      | exceed q => rfl
      | solid q => rfl
      | visit q => rfl
    | solid p =>
      exact ih fun q hq => h q (List.mem_cons_of_mem _ hq)
    | visit p =>
      exact ih fun q hq => h q (List.mem_cons_of_mem _ hq)

theorem ndae_append_of_no_exceed {l₁ l₂ : List FillEvent}
    (h : ∀ p, FillEvent.exceed p ∉ l₁) :
    noDequeueAfterExceed (l₁ ++ l₂) = noDequeueAfterExceed l₂ := by
  induction l₁ with
  | nil => rfl
  | cons e rest ih =>
    cases e with
    | dequeue p => exact ih fun q hq => h q (List.mem_cons_of_mem _ hq)
    | exceed p => exact absurd (List.mem_cons_self _ _) (h p)
    | solid p => exact ih fun q hq => h q (List.mem_cons_of_mem _ hq)
    | visit p => exact ih fun q hq => h q (List.mem_cons_of_mem _ hq)

theorem ndae_cons_dequeue (p : BlockPosition) (l : List FillEvent) :
    noDequeueAfterExceed (FillEvent.dequeue p :: l) = noDequeueAfterExceed l := rfl

/-! ## Loop lemmas: the `while` loop of `flood_fill` -/

section FloodFillLoop

variable (func : Context → BlockPosition → Context) (start : BlockPosition) (maxDist : Nat)

theorem loop_finished_events : ∀ (fuel : Nat) (st : FillState), st.finished = true →
    (floodFillLoop func start maxDist fuel st).2 = [] := by
  intro fuel
  cases fuel with
  | zero => intro st _; rfl
  | succ fuel =>
    intro st h
    simp only [floodFillLoop]
    cases hq : st.queue with
    | nil => rfl
    | cons pos rest => simp [h]

theorem loop_touched_mono : ∀ (fuel : Nat) (st : FillState) (p : BlockPosition),
    p ∈ st.touched → p ∈ (floodFillLoop func start maxDist fuel st).1.touched := by
  intro fuel
  induction fuel with
  | zero => intro st p h; exact h
  | succ fuel ih =>
    intro st p h
    simp only [floodFillLoop]
    cases hq : st.queue with
    | nil => exact h
    | cons pos rest =>
      by_cases hf : st.finished
      · simp only [if_pos hf]
        exact h
      · simp only [if_neg hf]
        exact ih _ p (step_touched_mono func start maxDist _ _ p h)

theorem loop_touched_iff : ∀ (fuel : Nat) (st : FillState) (p : BlockPosition),
    p ∈ (floodFillLoop func start maxDist fuel st).1.touched ↔
      p ∈ st.touched ∨ p ∈ touchesOf (floodFillLoop func start maxDist fuel st).2 := by
  intro fuel
  induction fuel with
  | zero => intro st p; simp [floodFillLoop]
  | succ fuel ih =>
    intro st p
    simp only [floodFillLoop]
    cases hq : st.queue with
    | nil => simp
    | cons pos rest =>
      by_cases hf : st.finished
      · simp only [if_pos hf]
        simp
      · simp only [if_neg hf]
        simp only [touchesOf_cons_dequeue, touchesOf_append]
        rw [ih]
        rw [step_touched_iff func start maxDist (adjacentBlocks pos)
          (FillState.mk st.ctx st.touched rest st.finished) p]
        simp only [List.mem_append]
        tauto

theorem loop_touches_dist : ∀ (fuel : Nat) (st : FillState) (p : BlockPosition),
    p ∈ touchesOf (floodFillLoop func start maxDist fuel st).2 →
      p.manhattanDistance start ≤ maxDist := by
  intro fuel
  induction fuel with
  | zero => intro st p h; simp [floodFillLoop] at h
  | succ fuel ih =>
    intro st p h
    simp only [floodFillLoop] at h
    cases hq : st.queue with
    | nil => rw [hq] at h; simp at h
    | cons pos rest =>
      rw [hq] at h
      by_cases hf : st.finished
      · simp only [if_pos hf] at h
        simp at h
      · simp only [if_neg hf] at h
        simp only [touchesOf_cons_dequeue, touchesOf_append, List.mem_append] at h
        rcases h with h | h
        · exact (step_touches_mem func start maxDist _ _ p h).2
        · exact ih _ p h

theorem loop_touches_slab : ∀ (fuel : Nat) (st : FillState) (p : BlockPosition),
    p ∈ touchesOf (floodFillLoop func start maxDist fuel st).2 →
      0 ≤ p.y ∧ p.y ≤ 256 := by
  intro fuel
  induction fuel with
  | zero => intro st p h; simp [floodFillLoop] at h
  | succ fuel ih =>
    intro st p h
    simp only [floodFillLoop] at h
    cases hq : st.queue with
    | nil => rw [hq] at h; simp at h
    | cons pos rest =>
      rw [hq] at h
      by_cases hf : st.finished
      · simp only [if_pos hf] at h
        simp at h
      · simp only [if_neg hf] at h
        simp only [touchesOf_cons_dequeue, touchesOf_append, List.mem_append] at h
        rcases h with h | h
        · exact adjacentBlocks_y (step_touches_mem func start maxDist _ _ p h).1
        · exact ih _ p h

theorem loop_touches_new : ∀ (fuel : Nat) (st : FillState),
    (touchesOf (floodFillLoop func start maxDist fuel st).2).Nodup ∧
      ∀ p ∈ touchesOf (floodFillLoop func start maxDist fuel st).2, p ∉ st.touched := by
  intro fuel
  induction fuel with
  | zero => intro st; simp [floodFillLoop]
  | succ fuel ih =>
    intro st
    simp only [floodFillLoop]
    cases hq : st.queue with
    | nil => simp
    | cons pos rest =>
      by_cases hf : st.finished
      · simp only [if_pos hf]
        simp
      · simp only [if_neg hf]
        simp only [touchesOf_cons_dequeue, touchesOf_append]
        obtain ⟨hnd1, hnew1⟩ := step_touches_new func start maxDist (adjacentBlocks pos)
          (FillState.mk st.ctx st.touched rest st.finished)
        obtain ⟨hnd2, hnew2⟩ := ih (floodFillStep func start maxDist
          (FillState.mk st.ctx st.touched rest st.finished) (adjacentBlocks pos)).1
        constructor
        · rw [List.nodup_append]
          refine ⟨hnd1, hnd2, fun p hp1 hp2 => ?_⟩
          exact hnew2 p hp2 ((step_touched_iff func start maxDist _ _ p).mpr (Or.inr hp1))
        · intro p hp
          rcases List.mem_append.mp hp with hp | hp
          · exact hnew1 p hp
          · intro hst
            exact hnew2 p hp ((step_touched_iff func start maxDist _ _ p).mpr (Or.inl hst))

theorem loop_queue_sub : ∀ (fuel : Nat) (st : FillState) (p : BlockPosition),
    p ∈ (floodFillLoop func start maxDist fuel st).1.queue →
      p ∈ st.queue ∨ p ∈ visitsOf (floodFillLoop func start maxDist fuel st).2 := by
  intro fuel
  induction fuel with
  | zero => intro st p h; exact Or.inl h
  | succ fuel ih =>
    intro st p h
    simp only [floodFillLoop] at h ⊢
    cases hq : st.queue with
    | nil => rw [hq] at h; exact Or.inl (hq ▸ h)
    | cons pos rest =>
      rw [hq] at h
      by_cases hf : st.finished
      · simp only [if_pos hf] at h ⊢
        exact Or.inl (List.mem_cons_of_mem _ h)
      · simp only [if_neg hf] at h ⊢
        rcases ih _ p h with h' | h'
        · rw [step_queue func start maxDist (adjacentBlocks pos)
            (FillState.mk st.ctx st.touched rest st.finished)] at h'
          rcases List.mem_append.mp h' with h'' | h''
          · exact Or.inl (List.mem_cons_of_mem _ h'')
          · right
            simp only [touchesOf_cons_dequeue, visitsOf_cons_dequeue, visitsOf_append,
              List.mem_append]
            exact Or.inl h''
        · right
          simp only [visitsOf_cons_dequeue, visitsOf_append, List.mem_append]
          exact Or.inr h'

theorem loop_ndae : ∀ (fuel : Nat) (st : FillState),
    noDequeueAfterExceed (floodFillLoop func start maxDist fuel st).2 = true := by
  intro fuel
  induction fuel with
  | zero => intro st; rfl
  | succ fuel ih =>
    intro st
    simp only [floodFillLoop]
    cases hq : st.queue with
    | nil => rfl
    | cons pos rest =>
      by_cases hf : st.finished
      · simp only [if_pos hf]
        rfl
      · simp only [if_neg hf]
        by_cases hex : ∃ p, FillEvent.exceed p ∈ (floodFillStep func start maxDist
          (FillState.mk st.ctx st.touched rest st.finished) (adjacentBlocks pos)).2
        · obtain ⟨p, hp⟩ := hex
          have hfin := step_finished_of_exceed func start maxDist _ _ p hp
          have hrec := loop_finished_events func start maxDist fuel _ hfin
          rw [ndae_cons_dequeue, hrec, List.append_nil]
          exact ndae_of_no_dequeue (step_no_dequeue func start maxDist _ _)
        · push_neg at hex
          rw [ndae_cons_dequeue, ndae_append_of_no_exceed hex]
          exact ih _

theorem loop_ctx (hfWf : ∀ c p, c.Wf → (func c p).Wf)
    (hfBlocks : ∀ c p q, c.Wf → blockValue (func c p) q = blockValue c q) :
    ∀ (fuel : Nat) (st : FillState), st.ctx.Wf →
    (floodFillLoop func start maxDist fuel st).1.ctx.Wf ∧
      ∀ q, blockValue (floodFillLoop func start maxDist fuel st).1.ctx q =
        blockValue st.ctx q := by
  intro fuel
  induction fuel with
  | zero => intro st h; exact ⟨h, fun _ => rfl⟩
  | succ fuel ih =>
    intro st h
    simp only [floodFillLoop]
    cases hq : st.queue with
    | nil => exact ⟨h, fun _ => rfl⟩
    | cons pos rest =>
      by_cases hf : st.finished
      · simp only [if_pos hf]
        exact ⟨h, fun _ => trivial⟩
      · simp only [if_neg hf]
        obtain ⟨hw1, hv1⟩ := step_ctx func start maxDist hfWf hfBlocks (adjacentBlocks pos)
          (FillState.mk st.ctx st.touched rest st.finished) h
        obtain ⟨hw2, hv2⟩ := ih _ hw1
        exact ⟨hw2, fun q => (hv2 q).trans (hv1 q)⟩

theorem loop_visit_not_solid (hfWf : ∀ c p, c.Wf → (func c p).Wf)
    (hfBlocks : ∀ c p q, c.Wf → blockValue (func c p) q = blockValue c q) :
    ∀ (fuel : Nat) (st : FillState), st.ctx.Wf →
    ∀ p, FillEvent.visit p ∈ (floodFillLoop func start maxDist fuel st).2 →
      (blockValue st.ctx p).isSolid = false := by
  intro fuel
  induction fuel with
  | zero => intro st _ p h; simp [floodFillLoop] at h
  | succ fuel ih =>
    intro st hw p h
    simp only [floodFillLoop] at h
    cases hq : st.queue with
    | nil => rw [hq] at h; simp at h
    | cons pos rest =>
      rw [hq] at h
      by_cases hf : st.finished
      · simp only [if_pos hf] at h
        simp at h
      · simp only [if_neg hf] at h
        simp only [List.mem_cons, List.mem_append] at h
        rcases h with h | h | h
        · cases h
        · exact step_visit_not_solid func start maxDist hfWf hfBlocks (adjacentBlocks pos)
            (FillState.mk st.ctx st.touched rest st.finished) hw p h
        · obtain ⟨hw1, hv1⟩ := step_ctx func start maxDist hfWf hfBlocks (adjacentBlocks pos)
            (FillState.mk st.ctx st.touched rest st.finished) hw
          have := ih _ hw1 p h
          rwa [hv1 p] at this

theorem loop_no_solid (hfWf : ∀ c p, c.Wf → (func c p).Wf)
    (hfBlocks : ∀ c p q, c.Wf → blockValue (func c p) q = blockValue c q) :
    ∀ (fuel : Nat) (st : FillState), st.ctx.Wf →
    (∀ q, (blockValue st.ctx q).isSolid = false) →
    ∀ p, FillEvent.solid p ∉ (floodFillLoop func start maxDist fuel st).2 := by
  intro fuel
  induction fuel with
  | zero => intro st _ _ p h; simp [floodFillLoop] at h
  | succ fuel ih =>
    intro st hw hsol p h
    simp only [floodFillLoop] at h
    cases hq : st.queue with
    | nil => rw [hq] at h; simp at h
    | cons pos rest =>
      rw [hq] at h
      by_cases hf : st.finished
      · simp only [if_pos hf] at h
        simp at h
      · simp only [if_neg hf] at h
        simp only [List.mem_cons, List.mem_append] at h
        rcases h with h | h | h
        · cases h
        · exact step_no_solid func start maxDist hfWf hfBlocks (adjacentBlocks pos)
            (FillState.mk st.ctx st.touched rest st.finished) hw hsol p h
        · obtain ⟨hw1, hv1⟩ := step_ctx func start maxDist hfWf hfBlocks (adjacentBlocks pos)
            (FillState.mk st.ctx st.touched rest st.finished) hw
          have hsol' : ∀ q, (blockValue (floodFillStep func start maxDist
              (FillState.mk st.ctx st.touched rest st.finished)
              (adjacentBlocks pos)).1.ctx q).isSolid = false := by
            intro q
            rw [hv1 q]
            exact hsol q
          exact ih _ hw1 hsol' p h

end FloodFillLoop

/-! ## Claim C1 -/

/-- C1, counterexample: at the position (-1,1,0), whose own chunk (-1,0) is
absent from the map while its neighbor (0,1,0) lies in the loaded chunk
(0,0) with light 5, `opaque_non_emitting_removal` stores nothing (the
write is a no-op), so the light read back at the position is 0 even though
the claimed value max(adjacent lights) - 1 is 4. -/
theorem c1_removal_counterexample :
    ((solidNonEmittingRemoval edgeCtx ⟨-1, 1, 0⟩).map
        (fun c => lightValue c ⟨-1, 1, 0⟩)) = some 0 ∧
      (((adjacentBlocks ⟨-1, 1, 0⟩).map (lightValue edgeCtx)).foldl Nat.max 0) - 1 = 4 := by
  constructor
  · decide
  · decide

/-- C1 (amended): for every block position p with vertical coordinate in
0..=256 whose chunk is loaded, running `opaque_non_emitting_removal` at p
succeeds and sets the light at p to the maximum of the light values of p's
axis-aligned adjacent blocks minus 1, floored at 0 (truncated natural
subtraction: if the maximum is 0 the stored value is 0, never negative). -/
theorem c1_removal_sets_max_adjacent_minus_one (ctx : Context) (p : BlockPosition)
    (hWf : ctx.Wf) (h0 : 0 ≤ p.y) (h1 : p.y ≤ 256)
    (hl : (ctx.chunkMap p.chunkPos).isSome = true) :
    ∃ ctx', solidNonEmittingRemoval ctx p = some ctx' ∧
      lightValue ctx' p = (((adjacentBlocks p).map (lightValue ctx)).foldl Nat.max 0) - 1 := by
  obtain ⟨ctx', he, _, hval⟩ := solidNonEmittingRemoval_spec hWf h0 h1
  exact ⟨ctx', he, hval hl⟩

/-- C1, witness: the scenario of `test_opaque_non_emitting_removal`, with
neighbor lights {10, 9, 8, 11, 0, 12} around (0,1,0); the stored result is
max - 1 = 11. -/
theorem c1_removal_witness :
    (∃ ctx', solidNonEmittingRemoval removalCtx ⟨0, 1, 0⟩ = some ctx' ∧
      lightValue ctx' ⟨0, 1, 0⟩ =
        (((adjacentBlocks ⟨0, 1, 0⟩).map (lightValue removalCtx)).foldl Nat.max 0) - 1) ∧
    (((adjacentBlocks ⟨0, 1, 0⟩).map (lightValue removalCtx)).foldl Nat.max 0) - 1 = 11 :=
  ⟨c1_removal_sets_max_adjacent_minus_one removalCtx ⟨0, 1, 0⟩ removalCtx_wf
      (by decide) (by decide) (by decide),
   by decide⟩

/-! ## Claim C5 -/

/-- C5: for every block position whose chunk is absent from the chunk map,
the accessors follow the unloaded-chunk policy instead of failing:
`block_light_at` returns 0, `block_at` returns `Block::Air` (which is
non-opaque and non-emitting), and `set_block_light_at` leaves the whole
context (cache and chunk map) unchanged. -/
theorem c5_unloaded_chunk_policy (ctx : Context) (pos : BlockPosition) (value : Nat)
    (hWf : ctx.Wf) (habs : ctx.chunkMap pos.chunkPos = none) :
    ctx.blockLightAt pos = (0, ctx) ∧ ctx.blockAt pos = (Block.air, ctx) ∧
      ctx.setBlockLightAt pos value = ctx ∧
      Block.air.isSolid = false ∧ Block.air.emission = 0 :=
  ⟨Context.blockLightAt_unloaded hWf habs, Context.blockAt_unloaded hWf habs,
   Context.setBlockLightAt_unloaded hWf habs value, rfl, rfl⟩

/-- C5, witness: the position (100,50,100) lies in chunk (6,6), which is
absent from the 3x3 test chunk map. -/
theorem c5_unloaded_chunk_witness :
    testCtx.chunkMap (⟨100, 50, 100⟩ : BlockPosition).chunkPos = none ∧
    (testCtx.blockLightAt ⟨100, 50, 100⟩ = (0, testCtx) ∧
      testCtx.blockAt ⟨100, 50, 100⟩ = (Block.air, testCtx) ∧
      testCtx.setBlockLightAt ⟨100, 50, 100⟩ 7 = testCtx ∧
      Block.air.isSolid = false ∧ Block.air.emission = 0) :=
  ⟨rfl, c5_unloaded_chunk_policy testCtx ⟨100, 50, 100⟩ 7 testCtx_wf rfl⟩

/-! ## Claim C6 -/

/-- C6: `Context::chunk_at_mut` returns exactly the chunk the chunk map
stores at the requested position (or nothing if unloaded), the returned
chunk's position equals the requested position (no stale cache data), the
cache is updated to the resolved chunk while the map itself is untouched,
and a cache hit resolves directly to the cached chunk without consulting
the map. -/
theorem c6_chunk_cache_correct (ctx : Context) (pos : ChunkPosition) (hWf : ctx.Wf) :
    (∀ c ctx', ctx.chunkAtMut pos = some (c, ctx') →
        ctx.chunkMap pos = some c ∧ ctx'.currentChunk = c ∧ c.position = pos ∧
          ctx'.chunkMap = ctx.chunkMap) ∧
    (ctx.chunkAtMut pos = none ↔ ctx.chunkMap pos = none) ∧
    (pos = ctx.currentChunk.position → ctx.chunkAtMut pos = some (ctx.currentChunk, ctx)) := by
  refine ⟨?_, Context.chunkAtMut_none hWf, fun h => Context.chunkAtMut_hit h⟩
  intro c ctx' h
  obtain ⟨h1, h2, h3, _, h5⟩ := Context.chunkAtMut_some hWf c ctx' h
  exact ⟨h1, h2, h5, h3⟩

/-- C6, witness: the scenario of `test_context` — resolving the uncached
chunk (0,1) yields the chunk stored there with matching position, and
resolving the cached chunk (0,0) is a direct cache hit. -/
theorem c6_chunk_cache_witness :
    (testCtx.chunkMap ⟨0, 1⟩ = some (Chunk.new ⟨0, 1⟩) ∧
      (Chunk.new ⟨0, 1⟩).position = ⟨0, 1⟩) ∧
    testCtx.chunkAtMut ⟨0, 0⟩ = some (testCtx.currentChunk, testCtx) := by
  constructor
  · have h := (c6_chunk_cache_correct testCtx ⟨0, 1⟩ testCtx_wf).1
      (Chunk.new ⟨0, 1⟩) ⟨Chunk.new ⟨0, 1⟩, testMap⟩ rfl
    exact ⟨h.1, h.2.2.1⟩
  · exact (c6_chunk_cache_correct testCtx ⟨0, 0⟩ testCtx_wf).2.2 rfl

/-! ## Claim C9 -/

/-- C9, counterexample: at vertical coordinate -2 every candidate neighbor
fails the world-height filter, `adjacent_blocks` returns an empty
collection, and the `.max().unwrap()` of `opaque_non_emitting_removal`
panics (modelled as `none`), so the claim's "at any vertical coordinate"
fails. -/
theorem c9_no_panic_counterexample :
    adjacentBlocks ⟨0, -2, 0⟩ = [] ∧
      (solidNonEmittingRemoval testCtx ⟨0, -2, 0⟩).isSome = false := by
  constructor
  · decide
  · decide

/-- C9 (amended): for every block position whose vertical coordinate lies
within the world-height range 0..=256 (including the boundaries y=0 and
y=256), `opaque_non_emitting_removal` never panics: `adjacent_blocks`
returns a non-empty collection (the horizontal neighbors pass the vertical
filter), so taking the maximum of the adjacent light values succeeds. -/
theorem c9_no_panic_in_bounds (ctx : Context) (p : BlockPosition)
    (h0 : 0 ≤ p.y) (h1 : p.y ≤ 256) :
    adjacentBlocks p ≠ [] ∧ (solidNonEmittingRemoval ctx p).isSome = true := by
  refine ⟨adjacentBlocks_ne_nil h0 h1, ?_⟩
  have hlen := collectLights_foldl_length (adjacentBlocks p) (([] : List Nat), ctx)
  cases h : ((adjacentBlocks p).foldl collectLights (([] : List Nat), ctx)).1 with
  | nil =>
    rw [h] at hlen
    cases hadj : adjacentBlocks p with
    | nil => exact absurd hadj (adjacentBlocks_ne_nil h0 h1)
    | cons a l =>
      rw [hadj] at hlen
      simp at hlen
  | cons a l =>
    simp only [solidNonEmittingRemoval]
    rw [h, listMax?_cons]
    rfl

/-- C9, witness: at the in-bounds position (0,1,0) the algorithm runs
without panicking. -/
theorem c9_no_panic_witness :
    (0 : Int) ≤ (⟨0, 1, 0⟩ : BlockPosition).y ∧ (⟨0, 1, 0⟩ : BlockPosition).y ≤ 256 ∧
    (adjacentBlocks ⟨0, 1, 0⟩ ≠ [] ∧
      (solidNonEmittingRemoval removalCtx ⟨0, 1, 0⟩).isSome = true) :=
  ⟨by decide, by decide, c9_no_panic_in_bounds removalCtx ⟨0, 1, 0⟩ (by decide) (by decide)⟩

/-! ## Claim C2 -/

/-- C2: for every start position, maximum distance, visitor and fuel,
`flood_fill` invokes the visitor at most once per position (the list of
visited positions has no duplicates), and every position it visits — and
every position it ever admits into the queue — lies within the Manhattan
distance bound. -/
theorem c2_visit_once_within_bound (func : Context → BlockPosition → Context)
    (ctx : Context) (start : BlockPosition) (maxDist fuel : Nat) :
    (floodFillVisits func ctx start maxDist fuel).Nodup ∧
    ((floodFillVisits func ctx start maxDist fuel).all
      (fun p => decide (p.manhattanDistance start ≤ maxDist))) = true ∧
    (((floodFill func ctx start maxDist fuel).1.queue).all
      (fun p => decide (p.manhattanDistance start ≤ maxDist))) = true := by
  simp only [floodFillVisits, floodFillEvents, floodFill]
  refine ⟨?_, ?_, ?_⟩
  · exact (visitsOf_sublist_touchesOf _).nodup
      (loop_touches_new func start maxDist fuel _).1
  · rw [List.all_eq_true]
    intro p hp
    refine decide_eq_true (loop_touches_dist func start maxDist fuel
      (FillState.mk ctx [start] [start] false) p ?_)
    exact mem_touchesOf_of_visit (mem_visitsOf_iff.mp hp)
  · rw [List.all_eq_true]
    intro p hp
    rcases loop_queue_sub func start maxDist fuel _ p hp with h | h
    · have : p = start := by simpa using h
      subst this
      refine decide_eq_true ?_
      simp [BlockPosition.manhattanDistance]
    · refine decide_eq_true (loop_touches_dist func start maxDist fuel
        (FillState.mk ctx [start] [start] false) p ?_)
      exact mem_touchesOf_of_visit (mem_visitsOf_iff.mp h)

/-! ## Claim C3 -/

/-- C3: for every start position, maximum distance, visitor (that preserves
well-formedness and block data, as every lighting visitor does) and fuel:
a position p reached as a solid (opaque) block is recorded in the visited
set but is neither enqueued for further expansion nor passed to the
visitor, and the visitor is invoked only on non-solid admitted
positions. -/
theorem c3_solid_blocks_traversal (func : Context → BlockPosition → Context)
    (ctx : Context) (start : BlockPosition) (maxDist fuel : Nat) (p q : BlockPosition)
    (hWf : ctx.Wf)
    (hfWf : ∀ c r, c.Wf → (func c r).Wf)
    (hfBlocks : ∀ c r s, c.Wf → blockValue (func c r) s = blockValue c s)
    (hp : FillEvent.solid p ∈ floodFillEvents func ctx start maxDist fuel)
    (hq : FillEvent.visit q ∈ floodFillEvents func ctx start maxDist fuel) :
    p ∈ (floodFill func ctx start maxDist fuel).1.touched ∧
    FillEvent.visit p ∉ floodFillEvents func ctx start maxDist fuel ∧
    p ∉ (floodFill func ctx start maxDist fuel).1.queue ∧
    (blockValue ctx q).isSolid = false := by
  simp only [floodFillEvents, floodFill] at hp hq ⊢
  have hnd := loop_touches_new func start maxDist fuel
    (FillState.mk ctx [start] [start] false)
  have hvisitp : FillEvent.visit p ∉ (floodFillLoop func start maxDist fuel
      (FillState.mk ctx [start] [start] false)).2 :=
    solid_visit_disjoint hnd.1 hp
  refine ⟨?_, hvisitp, ?_, ?_⟩
  · exact (loop_touched_iff func start maxDist fuel _ p).mpr
      (Or.inr (mem_touchesOf_of_solid hp))
  · intro hmem
    rcases loop_queue_sub func start maxDist fuel _ p hmem with h | h
    · have hps : p = start := by simpa using h
      have := hnd.2 p (mem_touchesOf_of_solid hp)
      subst hps
      exact this (List.mem_cons_self _ _)
    · exact hvisitp (mem_visitsOf_iff.mp h)
  · exact loop_visit_not_solid func start maxDist hfWf hfBlocks fuel _ hWf q hq

/-- C3, witness: in the corridor world, the solid position (7,100,8) is
touched but never visited or enqueued, and the admitted position (8,99,8)
is non-solid. -/
theorem c3_solid_blocks_witness :
    (⟨7, 100, 8⟩ : BlockPosition) ∈
      (floodFill (fun c _ => c) corridorCtx corridorStart 3 32).1.touched ∧
    FillEvent.visit ⟨7, 100, 8⟩ ∉
      floodFillEvents (fun c _ => c) corridorCtx corridorStart 3 32 ∧
    (⟨7, 100, 8⟩ : BlockPosition) ∉
      (floodFill (fun c _ => c) corridorCtx corridorStart 3 32).1.queue ∧
    (blockValue corridorCtx ⟨8, 99, 8⟩).isSolid = false :=
  c3_solid_blocks_traversal (fun c _ => c) corridorCtx corridorStart 3 32
    ⟨7, 100, 8⟩ ⟨8, 99, 8⟩ corridorCtx_wf (fun _ _ h => h) (fun _ _ _ _ => rfl)
    (by decide) (by decide)

/-! ## Claim C4 -/

/-- C4, counterexample: in the corridor world with maximum distance 3, the
traversal encounters an out-of-range neighbor (an `exceed` event) and
afterwards still invokes the visitor on a later neighbor of the same
position, contradicting "no position has the visitor invoked on it after
that point". -/
theorem c4_early_exit_counterexample :
    visitAfterExceed
      (floodFillEvents (fun c _ => c) corridorCtx corridorStart 3 32) = true ∧
    FillEvent.visit ⟨9, 100, 7⟩ ∈
      floodFillEvents (fun c _ => c) corridorCtx corridorStart 3 32 := by
  constructor
  · decide
  · decide

/-- C4 (amended): encountering a candidate neighbor beyond the maximum
distance sets the `finished` flag, which stops the loop at the next
dequeue: for every run, no position is dequeued and processed after an
`exceed` event — though the remaining neighbors of the position being
processed are still examined and may be visited or enqueued. -/
theorem c4_no_dequeue_after_exceed (func : Context → BlockPosition → Context)
    (ctx : Context) (start : BlockPosition) (maxDist fuel : Nat) :
    noDequeueAfterExceed (floodFillEvents func ctx start maxDist fuel) = true :=
  loop_ndae func start maxDist fuel (FillState.mk ctx [start] [start] false)

/-! ## Claim C7 -/

/-- C7: `adjacent_blocks` only ever returns positions whose vertical
coordinate lies within 0..=256, and consequently every position
`flood_fill` offers to the visitor satisfies the vertical bound. -/
theorem c7_vertical_bound (p : BlockPosition) (func : Context → BlockPosition → Context)
    (ctx : Context) (start : BlockPosition) (maxDist fuel : Nat) :
    ((adjacentBlocks p).all
      (fun q => decide (0 ≤ q.y) && decide (q.y ≤ 256))) = true ∧
    ((floodFillVisits func ctx start maxDist fuel).all
      (fun q => decide (0 ≤ q.y) && decide (q.y ≤ 256))) = true := by
  constructor
  · rw [List.all_eq_true]
    intro q hq
    obtain ⟨h0, h1⟩ := adjacentBlocks_y hq
    simp [h0, h1]
  · rw [List.all_eq_true]
    intro q hq
    simp only [floodFillVisits, floodFillEvents, floodFill] at hq
    obtain ⟨h0, h1⟩ := loop_touches_slab func start maxDist fuel _ q
      (mem_touchesOf_of_visit (mem_visitsOf_iff.mp hq))
    simp [h0, h1]

/-! ## Geometry of Manhattan balls inside the vertical slab -/

theorem manhattanDistance_self (p : BlockPosition) : p.manhattanDistance p = 0 := by
  simp [BlockPosition.manhattanDistance]

/-- Every slab position at distance at least 1 from the start has a
"parent": a position one step closer to the start whose neighbor list
contains it.  If the start's own vertical coordinate is within one step of
the slab, the parent is the start itself or again lies in the slab. -/
theorem exists_parent (start q : BlockPosition) (hs0 : -1 ≤ start.y) (hs1 : start.y ≤ 257)
    (hq0 : 0 ≤ q.y) (hq1 : q.y ≤ 256) (hd : 1 ≤ q.manhattanDistance start) :
    ∃ r : BlockPosition, q ∈ adjacentBlocks r ∧
      r.manhattanDistance start + 1 = q.manhattanDistance start ∧
      (r = start ∨ (0 ≤ r.y ∧ r.y ≤ 256)) := by
  obtain ⟨qx, qy, qz⟩ := q
  obtain ⟨sx, sy, sz⟩ := start
  simp only at hq0 hq1 hs0 hs1
  have hd' : 1 ≤ (qx - sx).natAbs + (qy - sy).natAbs + (qz - sz).natAbs := hd
  rcases lt_trichotomy qx sx with hx | hx | hx
  · refine ⟨⟨qx + 1, qy, qz⟩, ?_, ?_, Or.inr ⟨hq0, hq1⟩⟩
    · refine mem_adjacentBlocks_iff.mpr ⟨Or.inl ?_, hq0, hq1⟩
      simp only [BlockPosition.mk.injEq, and_true, true_and]
      try omega
    · show (qx + 1 - sx).natAbs + (qy - sy).natAbs + (qz - sz).natAbs + 1 =
        (qx - sx).natAbs + (qy - sy).natAbs + (qz - sz).natAbs
      omega
  · rcases lt_trichotomy qz sz with hz | hz | hz
    · refine ⟨⟨qx, qy, qz + 1⟩, ?_, ?_, Or.inr ⟨hq0, hq1⟩⟩
      · refine mem_adjacentBlocks_iff.mpr
          ⟨Or.inr (Or.inr (Or.inr (Or.inr (Or.inl ?_)))), hq0, hq1⟩
        simp only [BlockPosition.mk.injEq, and_true, true_and]
        try omega
      · show (qx - sx).natAbs + (qy - sy).natAbs + (qz + 1 - sz).natAbs + 1 =
          (qx - sx).natAbs + (qy - sy).natAbs + (qz - sz).natAbs
        omega
    · rcases lt_trichotomy qy sy with hy | hy | hy
      · refine ⟨⟨qx, qy + 1, qz⟩, ?_, ?_, ?_⟩
        · refine mem_adjacentBlocks_iff.mpr ⟨Or.inr (Or.inr (Or.inl ?_)), hq0, hq1⟩
          simp only [BlockPosition.mk.injEq, and_true, true_and]
          try omega
        · show (qx - sx).natAbs + (qy + 1 - sy).natAbs + (qz - sz).natAbs + 1 =
            (qx - sx).natAbs + (qy - sy).natAbs + (qz - sz).natAbs
          omega
        · by_cases hr : qy + 1 ≤ 256
          · refine Or.inr ⟨?_, ?_⟩
            · show (0 : Int) ≤ qy + 1
              omega
            · show qy + 1 ≤ (256 : Int)
              exact hr
          · left
            simp only [BlockPosition.mk.injEq]
            omega
      · exfalso
        omega
      · refine ⟨⟨qx, qy - 1, qz⟩, ?_, ?_, ?_⟩
        · refine mem_adjacentBlocks_iff.mpr ⟨Or.inr (Or.inr (Or.inr (Or.inl ?_))), hq0, hq1⟩
          simp only [BlockPosition.mk.injEq, and_true, true_and]
          try omega
        · show (qx - sx).natAbs + (qy - 1 - sy).natAbs + (qz - sz).natAbs + 1 =
            (qx - sx).natAbs + (qy - sy).natAbs + (qz - sz).natAbs
          omega
        · by_cases hr : 0 ≤ qy - 1
          · refine Or.inr ⟨?_, ?_⟩
            · show (0 : Int) ≤ qy - 1
              exact hr
            · show qy - 1 ≤ (256 : Int)
              omega
          · left
            simp only [BlockPosition.mk.injEq]
            omega
    · refine ⟨⟨qx, qy, qz - 1⟩, ?_, ?_, Or.inr ⟨hq0, hq1⟩⟩
      · refine mem_adjacentBlocks_iff.mpr
          ⟨Or.inr (Or.inr (Or.inr (Or.inr (Or.inr ?_)))), hq0, hq1⟩
        simp only [BlockPosition.mk.injEq, and_true, true_and]
        try omega
      · show (qx - sx).natAbs + (qy - sy).natAbs + (qz - 1 - sz).natAbs + 1 =
          (qx - sx).natAbs + (qy - sy).natAbs + (qz - sz).natAbs
        omega
  · refine ⟨⟨qx - 1, qy, qz⟩, ?_, ?_, Or.inr ⟨hq0, hq1⟩⟩
    · refine mem_adjacentBlocks_iff.mpr ⟨Or.inr (Or.inl ?_), hq0, hq1⟩
      simp only [BlockPosition.mk.injEq, and_true, true_and]
      try omega
    · show (qx - 1 - sx).natAbs + (qy - sy).natAbs + (qz - sz).natAbs + 1 =
        (qx - sx).natAbs + (qy - sy).natAbs + (qz - sz).natAbs
      omega

/-- Completeness of the processed prefix of a breadth-first traversal:
if every already-processed position has all its in-range neighbors
discovered, and every discovered position strictly closer than `dTop` has
been processed, then every slab position with distance between 1 and
`min maxDist dTop` has been discovered. -/
theorem bfs_complete (start : BlockPosition) (maxDist : Nat) (S : List BlockPosition)
    (i dTop : Nat) (hs0 : -1 ≤ start.y) (hs1 : start.y ≤ 257) (hstartS : start ∈ S)
    (hproc : ∀ p ∈ S.take i, ∀ q ∈ adjacentBlocks p,
      q.manhattanDistance start ≤ maxDist → q ∈ S)
    (hlow : ∀ r ∈ S, r.manhattanDistance start < dTop → r ∈ S.take i) :
    ∀ d, ∀ q : BlockPosition, 0 ≤ q.y → q.y ≤ 256 → q.manhattanDistance start = d →
      1 ≤ d → d ≤ maxDist → d ≤ dTop → q ∈ S := by
  intro d
  induction d using Nat.strong_induction_on with
  | _ d ih =>
    intro q hq0 hq1 hqd hd1 hdm hdt
    obtain ⟨r, hradj, hrd, hrcase⟩ := exists_parent start q hs0 hs1 hq0 hq1 (by omega)
    have hrdist : r.manhattanDistance start = d - 1 := by omega
    have hrS : r ∈ S := by
      rcases hrcase with rfl | ⟨hr0, hr1⟩
      · exact hstartS
      · by_cases hr_start : r = start
        · exact hr_start ▸ hstartS
        · have hr1' : 1 ≤ r.manhattanDistance start := by
            rcases Nat.eq_zero_or_pos (r.manhattanDistance start) with h0 | h0
            · exact absurd (manhattanDistance_eq_zero.mp h0) hr_start
            · exact h0
          exact ih (d - 1) (by omega) r hr0 hr1 hrdist (by omega) (by omega) (by omega)
    have hrtake : r ∈ S.take i := hlow r hrS (by omega)
    exact hproc r hrtake q hradj (by omega)

/-! ## List helpers for the breadth-first-order analysis -/

theorem drop_cons_parts {α : Type} : ∀ (S : List α) (i : Nat) (pos : α) (rest : List α),
    S.drop i = pos :: rest →
      S.take (i + 1) = S.take i ++ [pos] ∧ S.drop (i + 1) = rest ∧ i < S.length := by
  intro S
  induction S with
  | nil =>
    intro i pos rest h
    rw [List.drop_nil] at h
    cases h
  | cons a S' ih =>
    intro i pos rest h
    cases i with
    | zero =>
      rw [List.drop_zero] at h
      cases h
      exact ⟨rfl, rfl, by simp⟩
    | succ i =>
      obtain ⟨h1, h2, h3⟩ := ih i pos rest h
      refine ⟨?_, h2, by simpa using Nat.succ_lt_succ h3⟩
      show a :: S'.take (i + 1) = (a :: S'.take i) ++ [pos]
      rw [h1]
      simp

theorem pairwise_of_const {α : Type} (f : α → Nat) (c : Nat) (l : List α)
    (h : ∀ p ∈ l, f p = c) : List.Pairwise (fun a b => f a ≤ f b) l := by
  induction l with
  | nil => exact List.Pairwise.nil
  | cons a l ih =>
    refine List.pairwise_cons.mpr
      ⟨fun b hb => ?_, ih fun p hp => h p (List.mem_cons_of_mem _ hp)⟩
    rw [h a (List.mem_cons_self _ _), h b (List.mem_cons_of_mem _ hb)]

theorem touchesOf_eq_visitsOf {l : List FillEvent}
    (h : ∀ p, FillEvent.solid p ∉ l) : touchesOf l = visitsOf l := by
  induction l with
  | nil => rfl
  | cons e rest ih =>
    have h' : ∀ p, FillEvent.solid p ∉ rest := fun p hp => h p (List.mem_cons_of_mem _ hp)
    cases e with
    | solid p => exact absurd (List.mem_cons_self _ _) (h p)
    | dequeue p => simpa using ih h'
    | exceed p => simpa using ih h'
    | visit p => simp [ih h']

/-! ## Maintenance of the breadth-first invariant over one loop iteration -/

section BfsMaintain

variable (func : Context → BlockPosition → Context) (start : BlockPosition) (maxDist : Nat)
variable (ctx₀ : Context)

theorem bfs_maintain
    (hs0 : -1 ≤ start.y) (hs1 : start.y ≤ 257)
    (hfWf : ∀ c p, c.Wf → (func c p).Wf)
    (hfBlocks : ∀ c p q, c.Wf → blockValue (func c p) q = blockValue c q)
    (hsolid : ∀ q, (blockValue ctx₀ q).isSolid = false)
    (st : FillState) (visits : List BlockPosition) (pos : BlockPosition)
    (rest : List BlockPosition) (hq : st.queue = pos :: rest)
    (hInv : BfsInv start maxDist ctx₀ st visits) :
    BfsInv start maxDist ctx₀
      (floodFillStep func start maxDist (FillState.mk st.ctx st.touched rest st.finished)
        (adjacentBlocks pos)).1
      (visits ++ visitsOf (floodFillStep func start maxDist
        (FillState.mk st.ctx st.touched rest st.finished) (adjacentBlocks pos)).2) := by
  obtain ⟨⟨i, hi_le, hqueue, hproc⟩, htouched, hsorted, hmem, hnodup, hqb, hwf, hbv⟩ := hInv
  have hdrop : (start :: visits).drop i = pos :: rest := by
    rw [← hqueue]
    exact hq
  obtain ⟨htake1, hdrop1, hilt⟩ := drop_cons_parts _ i pos rest hdrop
  have hposS : pos ∈ start :: visits := by
    have hmd : pos ∈ (start :: visits).drop i := by
      rw [hdrop]
      exact List.mem_cons_self _ _
    exact List.mem_of_mem_drop hmd
  have hpairdrop : List.Pairwise
      (fun a b => a.manhattanDistance start ≤ b.manhattanDistance start) (pos :: rest) := by
    rw [← hdrop]
    exact List.Pairwise.sublist (List.drop_sublist _ _) hsorted
  have hrestlow : ∀ b ∈ rest,
      pos.manhattanDistance start ≤ b.manhattanDistance start :=
    fun b hb => List.rel_of_pairwise_cons hpairdrop hb
  have hsplitcross : ∀ a ∈ (start :: visits).take i, ∀ b ∈ (start :: visits).drop i,
      a.manhattanDistance start ≤ b.manhattanDistance start := by
    have h := List.pairwise_append.mp
      (by rw [List.take_append_drop i (start :: visits)]; exact hsorted)
    exact h.2.2
  have hlow : ∀ w ∈ start :: visits,
      w.manhattanDistance start < pos.manhattanDistance start →
        w ∈ (start :: visits).take i := by
    intro w hw hwlt
    have hw' : w ∈ (start :: visits).take i ++ (start :: visits).drop i := by
      rw [List.take_append_drop]
      exact hw
    rcases List.mem_append.mp hw' with h | h
    · exact h
    · rw [hdrop] at h
      rcases List.mem_cons.mp h with rfl | h
      · omega
      · exact absurd hwlt (by have := hrestlow w h; omega)
  have hsolid₁ : ∀ q,
      (blockValue (FillState.mk st.ctx st.touched rest st.finished).ctx q).isSolid = false :=
    fun q => by rw [hbv q]; exact hsolid q
  have hnosolid : ∀ p, FillEvent.solid p ∉ (floodFillStep func start maxDist
      (FillState.mk st.ctx st.touched rest st.finished) (adjacentBlocks pos)).2 :=
    step_no_solid func start maxDist hfWf hfBlocks (adjacentBlocks pos)
      (FillState.mk st.ctx st.touched rest st.finished) hwf hsolid₁
  have htv : touchesOf (floodFillStep func start maxDist
      (FillState.mk st.ctx st.touched rest st.finished) (adjacentBlocks pos)).2 =
      visitsOf (floodFillStep func start maxDist
      (FillState.mk st.ctx st.touched rest st.finished) (adjacentBlocks pos)).2 :=
    touchesOf_eq_visitsOf hnosolid
  have hpre : ∀ q ∈ adjacentBlocks pos,
      q.manhattanDistance start + 1 = pos.manhattanDistance start →
        q ∈ (FillState.mk st.ctx st.touched rest st.finished).touched := by
    intro q hqadj hq1
    obtain ⟨hq0, hq256⟩ := adjacentBlocks_y hqadj
    by_cases hz : q.manhattanDistance start = 0
    · have hqs : q = start := manhattanDistance_eq_zero.mp hz
      subst hqs
      exact (htouched q).mpr (List.mem_cons_self _ _)
    · have hposD : pos.manhattanDistance start ≤ maxDist := by
        rcases hmem pos hposS with rfl | ⟨_, hd, _⟩
        · exfalso
          rw [manhattanDistance_self] at hq1
          omega
        · exact hd
      have hqS : q ∈ start :: visits := bfs_complete start maxDist (start :: visits) i
          (pos.manhattanDistance start) hs0 hs1 (List.mem_cons_self _ _) hproc hlow
          (q.manhattanDistance start) q hq0 hq256 rfl (by omega) (by omega) (by omega)
      exact (htouched q).mpr hqS
  have hvd : ∀ p, FillEvent.visit p ∈ (floodFillStep func start maxDist
      (FillState.mk st.ctx st.touched rest st.finished) (adjacentBlocks pos)).2 →
      p.manhattanDistance start = pos.manhattanDistance start + 1 :=
    step_visits_dist func start maxDist (pos.manhattanDistance start) (adjacentBlocks pos)
      (FillState.mk st.ctx st.touched rest st.finished)
      (fun q hq => adjacentBlocks_dist hq) hpre
  have hnewd : ∀ p ∈ visitsOf (floodFillStep func start maxDist
      (FillState.mk st.ctx st.touched rest st.finished) (adjacentBlocks pos)).2,
      p.manhattanDistance start = pos.manhattanDistance start + 1 :=
    fun p hp => hvd p (mem_visitsOf_iff.mp hp)
  have hnewmem : ∀ p ∈ visitsOf (floodFillStep func start maxDist
      (FillState.mk st.ctx st.touched rest st.finished) (adjacentBlocks pos)).2,
      p ∈ adjacentBlocks pos ∧ p.manhattanDistance start ≤ maxDist := by
    intro p hp
    rw [← htv] at hp
    exact step_touches_mem func start maxDist _ _ p hp
  have hnewnotS : ∀ p ∈ visitsOf (floodFillStep func start maxDist
      (FillState.mk st.ctx st.touched rest st.finished) (adjacentBlocks pos)).2,
      p ∉ start :: visits := by
    intro p hp hpS
    rw [← htv] at hp
    exact (step_touches_new func start maxDist _ _).2 p hp ((htouched p).mpr hpS)
  have hSapp : start :: (visits ++ visitsOf (floodFillStep func start maxDist
      (FillState.mk st.ctx st.touched rest st.finished) (adjacentBlocks pos)).2) =
      (start :: visits) ++ visitsOf (floodFillStep func start maxDist
      (FillState.mk st.ctx st.touched rest st.finished) (adjacentBlocks pos)).2 := rfl
  refine ⟨⟨i + 1, ?_, ?_, ?_⟩, ?_, ?_, ?_, ?_, ?_, ?_, ?_⟩
  · rw [hSapp, List.length_append]
    omega
  · rw [step_queue func start maxDist (adjacentBlocks pos)
      (FillState.mk st.ctx st.touched rest st.finished), hSapp,
      List.drop_append_eq_append_drop]
    have h1 : (start :: visits).drop (i + 1) = rest := hdrop1
    have h2 : i + 1 - (start :: visits).length = 0 := by omega
    rw [h1, h2, List.drop_zero]
  · intro p hp q hqadj hqd
    rw [hSapp, List.take_append_eq_append_take] at hp
    have h2 : i + 1 - (start :: visits).length = 0 := by omega
    rw [h2, List.take_zero, List.append_nil, htake1] at hp
    rw [hSapp]
    rcases List.mem_append.mp hp with hp | hp
    · exact List.mem_append_left _ (hproc p hp q hqadj hqd)
    · have hppos : p = pos := by simpa using hp
      subst hppos
      have hqtouch : q ∈ (floodFillStep func start maxDist
          (FillState.mk st.ctx st.touched rest st.finished) (adjacentBlocks p)).1.touched :=
        step_inrange_touched func start maxDist _ _ q hqadj hqd
      rcases (step_touched_iff func start maxDist _ _ q).mp hqtouch with h | h
      · exact List.mem_append_left _ ((htouched q).mp h)
      · rw [htv] at h
        exact List.mem_append_right _ h
  · intro p
    rw [step_touched_iff func start maxDist (adjacentBlocks pos)
      (FillState.mk st.ctx st.touched rest st.finished) p, htv, hSapp, List.mem_append,
      htouched p]
  · rw [hSapp]
    refine List.pairwise_append.mpr ⟨hsorted, ?_, ?_⟩
    · exact pairwise_of_const (fun p : BlockPosition => p.manhattanDistance start)
        (pos.manhattanDistance start + 1) _ hnewd
    · intro a ha b hb
      rw [hnewd b hb]
      have ha' : a ∈ (start :: visits).take i ++ (start :: visits).drop i := by
        rw [List.take_append_drop]
        exact ha
      rcases List.mem_append.mp ha' with h | h
      · have := hsplitcross a h pos (by rw [hdrop]; exact List.mem_cons_self _ _)
        omega
      · rw [hdrop] at h
        rcases List.mem_cons.mp h with rfl | h
        · omega
        · have h1 : a ∈ st.queue := by rw [hq]; exact List.mem_cons_of_mem _ h
          have h2 : st.queue.head? = some pos := by rw [hq]; rfl
          have := hqb a h1 pos h2
          omega
  · intro p hp
    rw [hSapp] at hp
    rcases List.mem_append.mp hp with hp | hp
    · exact hmem p hp
    · right
      obtain ⟨hadj, hdm⟩ := hnewmem p hp
      obtain ⟨h0, h1⟩ := adjacentBlocks_y hadj
      refine ⟨?_, hdm, h0, h1⟩
      rw [hnewd p hp]
      omega
  · rw [hSapp]
    refine List.nodup_append.mpr ⟨hnodup, ?_, ?_⟩
    · rw [← htv]
      exact (step_touches_new func start maxDist _ _).1
    · intro a ha hb
      exact hnewnotS a hb ha
  · intro p hp f hf
    rw [step_queue func start maxDist (adjacentBlocks pos)
      (FillState.mk st.ctx st.touched rest st.finished)] at hp hf
    rcases rest with _ | ⟨f₀, rest'⟩
    · rw [List.nil_append] at hp hf
      have hfmem : f ∈ visitsOf (floodFillStep func start maxDist
          (FillState.mk st.ctx st.touched [] st.finished) (adjacentBlocks pos)).2 :=
        List.mem_of_mem_head? hf
      rw [hnewd p hp, hnewd f hfmem]
      omega
    · have hff : f = f₀ := by
        rw [List.cons_append] at hf
        simp at hf
        exact hf.symm
      subst hff
      have hf₀ : pos.manhattanDistance start ≤ f.manhattanDistance start :=
        hrestlow f (List.mem_cons_self _ _)
      rcases List.mem_append.mp hp with hp | hp
      · have h1 : p ∈ st.queue := by
          rw [hq]
          exact List.mem_cons_of_mem _ hp
        have h2 : st.queue.head? = some pos := by rw [hq]; rfl
        have := hqb p h1 pos h2
        omega
      · rw [hnewd p hp]
        omega
  · exact (step_ctx func start maxDist hfWf hfBlocks (adjacentBlocks pos)
      (FillState.mk st.ctx st.touched rest st.finished) hwf).1
  · intro q
    exact ((step_ctx func start maxDist hfWf hfBlocks (adjacentBlocks pos)
      (FillState.mk st.ctx st.touched rest st.finished) hwf).2 q).trans (hbv q)

end BfsMaintain

/-! ## The flood-fill visit order is breadth-first in open space -/

theorem loop_pairwise (func : Context → BlockPosition → Context) (start : BlockPosition)
    (maxDist : Nat) (ctx₀ : Context)
    (hs0 : -1 ≤ start.y) (hs1 : start.y ≤ 257)
    (hfWf : ∀ c p, c.Wf → (func c p).Wf)
    (hfBlocks : ∀ c p q, c.Wf → blockValue (func c p) q = blockValue c q)
    (hsolid : ∀ q, (blockValue ctx₀ q).isSolid = false) :
    ∀ (fuel : Nat) (st : FillState) (visits : List BlockPosition),
      BfsInv start maxDist ctx₀ st visits →
      List.Pairwise (fun a b => a.manhattanDistance start ≤ b.manhattanDistance start)
        (start :: (visits ++ visitsOf (floodFillLoop func start maxDist fuel st).2)) := by
  intro fuel
  induction fuel with
  | zero =>
    intro st visits hInv
    simpa [floodFillLoop] using hInv.2.2.1
  | succ fuel ih =>
    intro st visits hInv
    simp only [floodFillLoop]
    cases hq : st.queue with
    | nil => simpa using hInv.2.2.1
    | cons pos rest =>
      by_cases hf : st.finished
      · simp only [if_pos hf]
        simpa using hInv.2.2.1
      · simp only [if_neg hf]
        have hInv' := bfs_maintain func start maxDist ctx₀ hs0 hs1 hfWf hfBlocks hsolid
          st visits pos rest hq hInv
        have h := ih (floodFillStep func start maxDist
          (FillState.mk st.ctx st.touched rest st.finished) (adjacentBlocks pos)).1
          (visits ++ visitsOf (floodFillStep func start maxDist
            (FillState.mk st.ctx st.touched rest st.finished) (adjacentBlocks pos)).2) hInv'
        simp only [visitsOf_cons_dequeue, visitsOf_append]
        simpa [List.append_assoc] using h

theorem loop_queue_nil (func : Context → BlockPosition → Context) (start : BlockPosition)
    (maxDist : Nat) : ∀ (fuel : Nat) (st : FillState), st.queue = [] →
    floodFillLoop func start maxDist fuel st = (st, []) := by
  intro fuel st h
  cases fuel with
  | zero => rfl
  | succ fuel =>
    simp only [floodFillLoop]
    rw [h]

theorem floodFill_far_start (func : Context → BlockPosition → Context) (ctx : Context)
    (start : BlockPosition) (maxDist fuel : Nat) (h : adjacentBlocks start = []) :
    floodFillVisits func ctx start maxDist fuel = [] := by
  cases fuel with
  | zero => rfl
  | succ fuel =>
    have h1 := loop_queue_nil func start maxDist fuel (FillState.mk ctx [start] [] false) rfl
    simp [floodFillVisits, floodFillEvents, floodFill, floodFillLoop, h, h1, floodFillStep]

theorem testCtx_all_air : ∀ q, (blockValue testCtx q).isSolid = false := by
  intro q
  cases h : testCtx.chunkMap q.chunkPos with
  | none => simp [blockValue, h, Block.isSolid]
  | some c =>
    have hc : c = Chunk.new q.chunkPos := by
      simp only [testCtx, testMap] at h
      split_ifs at h
      cases h
      rfl
    subst hc
    simp [blockValue, h, Chunk.new, Chunk.blockAt, Block.isSolid]

/-! ## Claim C8 -/

/-- C8, counterexample: in the corridor world, the position (9,100,7) at
Manhattan distance 2 from the start is visited after the position (9,99,7)
at distance 3 (the only paths to it detour around stone), refuting "every
position at distance d is visited before any position at distance d+1". -/
theorem c8_bfs_order_counterexample :
    floodFillVisits (fun c _ => c) corridorCtx corridorStart 3 32 =
      [⟨8, 99, 8⟩, ⟨8, 99, 7⟩, ⟨9, 99, 7⟩, ⟨9, 100, 7⟩] ∧
    BlockPosition.manhattanDistance ⟨9, 99, 7⟩ corridorStart = 3 ∧
    BlockPosition.manhattanDistance ⟨9, 100, 7⟩ corridorStart = 2 := by
  refine ⟨by decide, by decide, by decide⟩

/-- C8 (amended): when no opaque block is present anywhere in the world
(and the visitor preserves well-formedness and block data, as lighting
visitors do), `flood_fill` visits positions in nondecreasing order of
Manhattan distance from the start: every position at distance d is visited
before any position at distance d+1. -/
theorem c8_visits_sorted_in_open_space (func : Context → BlockPosition → Context)
    (ctx : Context) (start : BlockPosition) (maxDist fuel : Nat)
    (hWf : ctx.Wf)
    (hfWf : ∀ c p, c.Wf → (func c p).Wf)
    (hfBlocks : ∀ c p q, c.Wf → blockValue (func c p) q = blockValue c q)
    (hsolid : ∀ q, (blockValue ctx q).isSolid = false) :
    List.Pairwise (fun a b => a.manhattanDistance start ≤ b.manhattanDistance start)
      (floodFillVisits func ctx start maxDist fuel) := by
  by_cases hs : -1 ≤ start.y ∧ start.y ≤ 257
  · have hInv : BfsInv start maxDist ctx (FillState.mk ctx [start] [start] false) [] := by
      refine ⟨⟨0, by simp, by simp, by simp⟩, ?_, ?_, ?_, by simp, ?_, hWf, fun _ => rfl⟩
      · intro p
        exact Iff.rfl
      · simp
      · intro p hp
        rcases List.mem_cons.mp hp with rfl | hp
        · exact Or.inl rfl
        · simp at hp
      · intro p hp f hf
        have hp' : p = start := by simpa using hp
        have hf' : start = f := by simpa using hf
        subst hp'
        rw [← hf']
        omega
    have h := loop_pairwise func start maxDist ctx hs.1 hs.2 hfWf hfBlocks hsolid fuel
      (FillState.mk ctx [start] [start] false) [] hInv
    have h' := List.Pairwise.of_cons h
    simpa [floodFillVisits, floodFillEvents, floodFill] using h'
  · have hfar : adjacentBlocks start = [] := by
      refine adjacentBlocks_of_far ?_
      omega
    rw [floodFill_far_start func ctx start maxDist fuel hfar]
    exact List.Pairwise.nil

/-- C8, witness: in the open-space test world, a fill of maximum distance 1
from (100,100,100) visits its six neighbors in nondecreasing distance
order. -/
theorem c8_bfs_order_witness :
    List.Pairwise (fun a b =>
        a.manhattanDistance (⟨100, 100, 100⟩ : BlockPosition) ≤
          b.manhattanDistance (⟨100, 100, 100⟩ : BlockPosition))
      (floodFillVisits (fun c _ => c) testCtx ⟨100, 100, 100⟩ 1 32) :=
  c8_visits_sorted_in_open_space (fun c _ => c) testCtx ⟨100, 100, 100⟩ 1 32
    testCtx_wf (fun _ _ h => h) (fun _ _ _ _ => rfl) testCtx_all_air

/-! ## Claim C10 -/

/-- C10: `flood_fill` never invokes the visitor on the start position
itself (the start is pre-marked visited), and in the open-space scenario
of `test_flood_fill` a fill of maximum distance 1 visits exactly the six
neighbors of the start, in neighbor order. -/
theorem c10_start_not_visited (func : Context → BlockPosition → Context)
    (ctx : Context) (start : BlockPosition) (maxDist fuel : Nat) :
    ((floodFillVisits func ctx start maxDist fuel).all
      (fun q => decide (q ≠ start))) = true ∧
    floodFillVisits (fun c _ => c) testCtx ⟨100, 100, 100⟩ 1 32 =
      [⟨99, 100, 100⟩, ⟨101, 100, 100⟩, ⟨100, 99, 100⟩, ⟨100, 101, 100⟩,
       ⟨100, 100, 99⟩, ⟨100, 100, 101⟩] := by
  constructor
  · rw [List.all_eq_true]
    intro q hq
    simp only [floodFillVisits, floodFillEvents, floodFill] at hq
    have := (loop_touches_new func start maxDist fuel
      (FillState.mk ctx [start] [start] false)).2 q
      (mem_touchesOf_of_visit (mem_visitsOf_iff.mp hq))
    refine decide_eq_true fun hqs => ?_
    subst hqs
    exact this (List.mem_cons_self _ _)
  · decide

end Feather
